import Mathlib

/-!
Verification of the MXL timing/index arithmetic and the flow synchronization
group against their C++ sources.

The embedding below is a shallow model of:
  - `timestampToIndex` / `indexToTimestamp` (IndexConversion header), and
  - `FlowSynchronizationGroup` (`addReader`, `removeReader`, `waitForDataAt`).

C++ machine arithmetic is made explicit:
  - `__int128` intermediates are modelled by unbounded `Int` (within the value
    ranges exercised by the theorems no 128-bit overflow occurs);
  - C++ `/` on signed integers truncates toward zero and is modelled by
    `Int.tdiv`;
  - `static_cast<std::uint64_t>` is modelled by `toUInt64` (reduction
    mod 2^64), `static_cast<std::int64_t>` by `toInt64` (reduction mod 2^64
    into the signed window).
-/

/-- Reduction of a (128-bit) signed value into `uint64_t`:
`static_cast<std::uint64_t>` keeps the value mod 2^64. -/
def toUInt64 (x : Int) : Nat :=
  (x % (18446744073709551616 : Int)).toNat

/-- Reduction of a (128-bit) signed value into `int64_t`: value mod 2^64,
re-interpreted in the signed window [-2^63, 2^63). -/
def toInt64 (x : Int) : Int :=
  let r := x % (18446744073709551616 : Int)
  if r < 9223372036854775808 then r else r - 18446744073709551616

/-- `mxlRational` from `mxl/rational.h`: the edit rate, a pair of signed
integer fields. -/
structure mxlRational where
  numerator : Int
  denominator : Int
deriving DecidableEq, Repr

/-- `Timepoint` from `Timing.hpp`: signed 64-bit nanoseconds since the TAI
epoch, wrapped in a struct. -/
structure Timepoint where
  value : Int
deriving DecidableEq, Repr

/-- `MXL_UNDEFINED_INDEX = 2^64 - 1`. -/
def MXL_UNDEFINED_INDEX : Nat := 18446744073709551615

/-- `timestampToIndex` (IndexConversion source):
```
if ((editRate.denominator != 0) && (editRate.numerator != 0))
    return static_cast<uint64_t>((timestamp.value * __int128{num}
            + 500000000 * __int128{den}) / (1000000000 * __int128{den}));
else
    return MXL_UNDEFINED_INDEX;
```
-/
def timestampToIndex (editRate : mxlRational) (timestamp : Timepoint) : Nat :=
  if editRate.denominator ≠ 0 ∧ editRate.numerator ≠ 0 then
    toUInt64 ((timestamp.value * editRate.numerator +
        500000000 * editRate.denominator).tdiv
      (1000000000 * editRate.denominator))
  else
    MXL_UNDEFINED_INDEX

/-- `indexToTimestamp` (IndexConversion source):
```
if ((editRate.denominator != 0) && (editRate.numerator != 0))
    return Timepoint{static_cast<int64_t>((index * __int128{den} * 1000000000
            + __int128{num} / 2) / __int128{num})};
return {};
```
-/
def indexToTimestamp (editRate : mxlRational) (index : Nat) : Timepoint :=
  if editRate.denominator ≠ 0 ∧ editRate.numerator ≠ 0 then
    ⟨toInt64 ((((index : Int) * editRate.denominator * 1000000000 +
        editRate.numerator.tdiv 2)).tdiv editRate.numerator)⟩
  else
    ⟨0⟩

/-- `⌈10^9·den / (2·num)⌉` — the round-trip error bound named by the spec,
as an integer ceiling division (exact for positive `num`, `den`). -/
def roundTripBound (editRate : mxlRational) : Int :=
  (1000000000 * editRate.denominator + 2 * editRate.numerator - 1).fdiv
    (2 * editRate.numerator)

/-- Lower bound of Euclidean division by a positive divisor. -/
theorem ediv_lower (a b : Int) (hb : 0 < b) : b * (a / b) ≤ a := by
  have h := Int.ediv_add_emod a b
  have h2 := Int.emod_nonneg a hb.ne'
  omega

/-- Upper bound of Euclidean division by a positive divisor. -/
theorem ediv_upper (a b : Int) (hb : 0 < b) : a < b * (a / b) + b := by
  have h := Int.ediv_add_emod a b
  have h2 := Int.emod_lt_of_pos a hb
  omega

/-- In-range evaluation of `timestampToIndex` for a positive rate and a
nonnegative dividend: the truncating 128-bit division coincides with
Euclidean division and the `uint64_t` cast is the identity. -/
theorem timestampToIndex_eval (num den t : Int)
    (hnum : 0 < num) (hden : 0 < den)
    (hA : 0 ≤ t * num + 500000000 * den)
    (hq : (t * num + 500000000 * den) / (1000000000 * den) <
      18446744073709551616) :
    ((timestampToIndex ⟨num, den⟩ ⟨t⟩ : Nat) : Int)
      = (t * num + 500000000 * den) / (1000000000 * den) := by
  have hD : (0 : Int) < 1000000000 * den := by positivity
  have hq0 : 0 ≤ (t * num + 500000000 * den) / (1000000000 * den) :=
    Int.ediv_nonneg hA hD.le
  unfold timestampToIndex toUInt64
  rw [if_pos ⟨hden.ne', hnum.ne'⟩]
  rw [Int.tdiv_eq_ediv hA hD.le]
  rw [Int.emod_eq_of_lt hq0 (by exact_mod_cast hq)]
  exact Int.toNat_of_nonneg hq0

/-- In-range evaluation of `indexToTimestamp` for a positive rate when the
result fits below `2^63`: truncating divisions coincide with Euclidean
divisions and the `int64_t` cast is the identity. -/
theorem indexToTimestamp_eval (num den : Int) (i : Nat)
    (hnum : 0 < num) (hden : 0 < den)
    (hs : ((i : Int) * den * 1000000000 + num / 2) / num <
      9223372036854775808) :
    (indexToTimestamp ⟨num, den⟩ i).value
      = ((i : Int) * den * 1000000000 + num / 2) / num := by
  have hE : 0 ≤ (i : Int) * den * 1000000000 + num / 2 := by
    have h1 : 0 ≤ (i : Int) * den * 1000000000 := by positivity
    have h2 : 0 ≤ num / 2 := Int.ediv_nonneg hnum.le (by norm_num)
    omega
  have hs0 : 0 ≤ ((i : Int) * den * 1000000000 + num / 2) / num :=
    Int.ediv_nonneg hE hnum.le
  unfold indexToTimestamp toInt64
  rw [if_pos ⟨hden.ne', hnum.ne'⟩]
  rw [Int.tdiv_eq_ediv hnum.le (by norm_num)]
  rw [Int.tdiv_eq_ediv hE hnum.le]
  simp only []
  rw [Int.emod_eq_of_lt hs0 (by omega)]
  rw [if_pos (by omega)]

/-- C3: for every edit rate in which the numerator or the denominator is
zero, `timestampToIndex` returns `MXL_UNDEFINED_INDEX = 2^64 - 1` and
`indexToTimestamp` returns the zero `Timepoint`, for every timestamp and
index argument. -/
theorem C3_zero_rate (editRate : mxlRational) (t : Timepoint) (i : Nat)
    (h : editRate.numerator = 0 ∨ editRate.denominator = 0) :
    timestampToIndex editRate t = MXL_UNDEFINED_INDEX ∧
    indexToTimestamp editRate i = ⟨0⟩ ∧
    MXL_UNDEFINED_INDEX = 2 ^ 64 - 1 := by
  unfold timestampToIndex indexToTimestamp
  rcases h with h | h <;>
    simp [h, MXL_UNDEFINED_INDEX]

/-- Witness for `C3_zero_rate` at the concrete rate (0, 5). -/
theorem C3_zero_rate_witness :
    ((0 : Int) = 0 ∨ (5 : Int) = 0) ∧
    (timestampToIndex ⟨0, 5⟩ ⟨123⟩ = MXL_UNDEFINED_INDEX ∧
      indexToTimestamp ⟨0, 5⟩ 7 = ⟨0⟩ ∧
      MXL_UNDEFINED_INDEX = 2 ^ 64 - 1) :=
  ⟨Or.inl rfl, C3_zero_rate ⟨0, 5⟩ ⟨123⟩ 7 (Or.inl rfl)⟩

/-- C2 counterexample: at edit rate (1, 1) and the negative timepoint
t = -10^9 ns, the code (which truncates the 128-bit division toward zero)
returns index 0, while the claimed formula floor((t*num + 5*10^8*den) /
(10^9*den)) equals -1 — these disagree both as integers and after the
`uint64_t` cast. -/
theorem C2_counterexample :
    timestampToIndex ⟨1, 1⟩ ⟨-1000000000⟩ = 0 ∧
    ((-1000000000 : Int) * 1 + 500000000 * 1).fdiv (1000000000 * 1) = -1 ∧
    ((0 : Int) ≠ -1) ∧ toUInt64 (-1) ≠ 0 := by decide

/-- C2 (amended): for positive numerator and denominator,
`timestampToIndex` equals the spec's floor formula whenever the dividend
`t*num + 5*10^8*den` is nonnegative (in particular for every t ≥ 0) and the
quotient fits in `uint64_t`; and `indexToTimestamp` equals the spec's floor
formula (with `num/2` also floored) whenever the quotient fits in
`int64_t`.  For a negative dividend the C++ division truncates toward zero
instead of flooring. -/
theorem C2_floor_formulas_amended (num den t : Int) (i : Nat)
    (hnum : 0 < num) (hden : 0 < den)
    (hA : 0 ≤ t * num + 500000000 * den)
    (hq : (t * num + 500000000 * den).fdiv (1000000000 * den) <
      18446744073709551616)
    (hs : ((i : Int) * den * 1000000000 + num.fdiv 2).fdiv num <
      9223372036854775808) :
    ((timestampToIndex ⟨num, den⟩ ⟨t⟩ : Nat) : Int)
      = (t * num + 500000000 * den).fdiv (1000000000 * den) ∧
    (indexToTimestamp ⟨num, den⟩ i).value
      = ((i : Int) * den * 1000000000 + num.fdiv 2).fdiv num := by
  have hD : (0 : Int) < 1000000000 * den := by positivity
  rw [Int.fdiv_eq_ediv _ hD.le] at hq ⊢
  rw [Int.fdiv_eq_ediv _ (by norm_num : (0:Int) ≤ 2)] at hs ⊢
  rw [Int.fdiv_eq_ediv _ hnum.le] at hs ⊢
  exact ⟨timestampToIndex_eval num den t hnum hden hA hq,
    indexToTimestamp_eval num den i hnum hden hs⟩

/-- Witness for `C2_floor_formulas_amended` at rate (30000, 1001),
t = 10^9 ns, index 30. -/
theorem C2_floor_formulas_amended_witness :
    ((0 : Int) < 30000 ∧ (0 : Int) < 1001 ∧
      (0 : Int) ≤ 1000000000 * 30000 + 500000000 * 1001) ∧
    (((timestampToIndex ⟨30000, 1001⟩ ⟨1000000000⟩ : Nat) : Int)
        = ((1000000000 : Int) * 30000 + 500000000 * 1001).fdiv
          (1000000000 * 1001) ∧
      (indexToTimestamp ⟨30000, 1001⟩ 30).value
        = (((30 : Nat) : Int) * 1001 * 1000000000 +
            (30000 : Int).fdiv 2).fdiv 30000) :=
  ⟨⟨by decide, by decide, by decide⟩,
    C2_floor_formulas_amended 30000 1001 1000000000 30 (by decide) (by decide)
      (by decide) (by decide) (by decide)⟩

/-- C1 counterexample: at edit rate (1, 1) and t = -10^9 ns, the round trip
`indexToTimestamp(timestampToIndex(t))` yields 0, which differs from t by
10^9 ns, exceeding the claimed bound ceil(10^9*den/(2*num)) = 5*10^8 ns
(truncation toward zero plus the uint64 cast break the bound for negative
timepoints). -/
theorem C1_counterexample :
    ¬(|(indexToTimestamp ⟨1, 1⟩ (timestampToIndex ⟨1, 1⟩ ⟨-1000000000⟩)).value
        - (-1000000000)| ≤ roundTripBound ⟨1, 1⟩) := by decide

/-- C1 (amended): for every edit rate with positive numerator and
denominator and every nonnegative timepoint t such that the computed index
fits in `uint64_t` and t plus the error bound fits in `int64_t`, the round
trip `indexToTimestamp(timestampToIndex(t))` differs from t by at most
ceil(10^9*den/(2*num)) nanoseconds. -/
theorem C1_roundtrip_bound_amended (num den t : Int)
    (hnum : 0 < num) (hden : 0 < den) (ht : 0 ≤ t)
    (hq : (t * num + 500000000 * den) / (1000000000 * den) <
      18446744073709551616)
    (hfit : t + roundTripBound ⟨num, den⟩ < 9223372036854775808) :
    |(indexToTimestamp ⟨num, den⟩ (timestampToIndex ⟨num, den⟩ ⟨t⟩)).value - t|
      ≤ roundTripBound ⟨num, den⟩ := by
  have hD : (0 : Int) < 1000000000 * den := by positivity
  have h2n : (0 : Int) < 2 * num := by positivity
  have hA : 0 ≤ t * num + 500000000 * den := by positivity
  have hCdef : roundTripBound ⟨num, den⟩
      = (1000000000 * den + 2 * num - 1) / (2 * num) := by
    unfold roundTripBound
    exact Int.fdiv_eq_ediv _ h2n.le
  set q : Int := (t * num + 500000000 * den) / (1000000000 * den) with hqdef
  set h2 : Int := num / 2 with hh2
  set s : Int := (q * den * 1000000000 + h2) / num with hsdef
  set C : Int := (1000000000 * den + 2 * num - 1) / (2 * num) with hCdef2
  have hq0 : 0 ≤ q := Int.ediv_nonneg hA hD.le
  have hieq : ((timestampToIndex ⟨num, den⟩ ⟨t⟩ : Nat) : Int) = q :=
    timestampToIndex_eval num den t hnum hden hA hq
  have b1 : (1000000000 * den) * q ≤ t * num + 500000000 * den :=
    ediv_lower _ _ hD
  have b2 : t * num + 500000000 * den < (1000000000 * den) * q +
      1000000000 * den := ediv_upper _ _ hD
  have b3 : num * s ≤ q * den * 1000000000 + h2 := ediv_lower _ _ hnum
  have b4 : q * den * 1000000000 + h2 < num * s + num := ediv_upper _ _ hnum
  have b5 : (2 * num) * C ≤ 1000000000 * den + 2 * num - 1 :=
    ediv_lower _ _ h2n
  have b6 : 1000000000 * den + 2 * num - 1 < (2 * num) * C + 2 * num :=
    ediv_upper _ _ h2n
  have b7 : 2 * h2 ≤ num := by
    have := ediv_lower num 2 (by norm_num); omega
  have b8 : num < 2 * h2 + 2 := by
    have := ediv_upper num 2 (by norm_num); omega
  have hqd : q * den * 1000000000 = (1000000000 * den) * q := by ring
  have hub : s - t ≤ C := by
    by_contra hcon
    push_neg at hcon
    have hstep : num * (C + 1) ≤ num * (s - t) :=
      mul_le_mul_of_nonneg_left (by omega) hnum.le
    nlinarith [hstep, b1, b3, b5, b6, b7, hqd]
  have hlb : t - s ≤ C := by
    by_contra hcon
    push_neg at hcon
    have hstep : num * (C + 1) ≤ num * (t - s) :=
      mul_le_mul_of_nonneg_left (by omega) hnum.le
    nlinarith [hstep, b2, b4, b5, b6, b7, b8, hqd]
  have hveq : (indexToTimestamp ⟨num, den⟩
      (timestampToIndex ⟨num, den⟩ ⟨t⟩)).value = s := by
    have := indexToTimestamp_eval num den
      (timestampToIndex ⟨num, den⟩ ⟨t⟩) hnum hden
      (by rw [hieq, ← hh2, ← hsdef]; rw [hCdef] at hfit; omega)
    rw [this, hieq, ← hh2, ← hsdef]
  rw [hveq, hCdef]
  exact abs_le.mpr ⟨by omega, hub⟩

/-- Witness for `C1_roundtrip_bound_amended` at rate (30000, 1001) and
t = 10^9 ns. -/
theorem C1_roundtrip_bound_amended_witness :
    ((0 : Int) < 30000 ∧ (0 : Int) < 1001 ∧ (0 : Int) ≤ 1000000000 ∧
      (1000000000 : Int) + roundTripBound ⟨30000, 1001⟩ <
        9223372036854775808) ∧
    |(indexToTimestamp ⟨30000, 1001⟩
        (timestampToIndex ⟨30000, 1001⟩ ⟨1000000000⟩)).value - 1000000000|
      ≤ roundTripBound ⟨30000, 1001⟩ :=
  ⟨⟨by decide, by decide, by decide, by decide⟩,
    C1_roundtrip_bound_amended 30000 1001 1000000000 (by decide) (by decide)
      (by decide) (by decide) (by decide)⟩

/-- Exact index round trip: for a positive edit rate slower than one grain
per nanosecond (num < 10^9 * den), `timestampToIndex (indexToTimestamp i)`
recovers the index exactly when the intermediate timestamp fits in
`int64_t`. -/
theorem roundtrip_index (num den : Int) (i : Nat)
    (hnum : 0 < num) (hden : 0 < den) (hrate : num < 1000000000 * den)
    (hi : (i : Int) < 18446744073709551616)
    (hs : ((i : Int) * den * 1000000000 + num / 2) / num <
      9223372036854775808) :
    timestampToIndex ⟨num, den⟩ (indexToTimestamp ⟨num, den⟩ i) = i := by
  have hD : (0 : Int) < 1000000000 * den := by positivity
  set h2 : Int := num / 2 with hh2
  set s : Int := ((i : Int) * den * 1000000000 + h2) / num with hsdef
  have b3 : num * s ≤ (i : Int) * den * 1000000000 + h2 := ediv_lower _ _ hnum
  have b4 : (i : Int) * den * 1000000000 + h2 < num * s + num :=
    ediv_upper _ _ hnum
  have b7 : 2 * h2 ≤ num := by
    have := ediv_lower num 2 (by norm_num); omega
  have b8 : num < 2 * h2 + 2 := by
    have := ediv_upper num 2 (by norm_num); omega
  have hveq : (indexToTimestamp ⟨num, den⟩ i).value = s :=
    indexToTimestamp_eval num den i hnum hden hs
  have hleft : (i : Int) * (1000000000 * den) ≤ s * num + 500000000 * den := by
    nlinarith [b4, b7, b8]
  have hright : s * num + 500000000 * den < ((i : Int) + 1) *
      (1000000000 * den) := by
    nlinarith [b3, b7, b8]
  have hquot : (s * num + 500000000 * den) / (1000000000 * den) = (i : Int) := by
    refine le_antisymm ?_ ((Int.le_ediv_iff_mul_le hD).mpr hleft)
    have := (Int.ediv_lt_iff_lt_mul hD).mpr hright
    omega
  have hA : 0 ≤ s * num + 500000000 * den := by
    have h1 : 0 ≤ (i : Int) * den * 1000000000 := by positivity
    have h20 : 0 ≤ h2 := by omega
    have hs0 : 0 ≤ s := by
      rw [hsdef]
      exact Int.ediv_nonneg (by omega) hnum.le
    positivity
  have hieq := timestampToIndex_eval num den s hnum hden hA
    (by rw [hquot]; exact hi)
  have : ((timestampToIndex ⟨num, den⟩ ⟨s⟩ : Nat) : Int) = (i : Int) := by
    rw [hieq, hquot]
  rw [← hveq] at this
  exact_mod_cast this

/-- C4 counterexample: at the NTSC rate (30000, 1001),
`indexToTimestamp 30` is 1 001 000 000 ns (frame 30 starts at 1.001 s),
which lies outside the claimed interval [999 966 666, 1 000 000 000] ns. -/
theorem C4_counterexample :
    (indexToTimestamp ⟨30000, 1001⟩ 30).value = 1001000000 ∧
    ¬((indexToTimestamp ⟨30000, 1001⟩ 30).value ≤ 1000000000) := by decide

/-- C4 (amended): with editRate = (30000, 1001): timestampToIndex at
t = 10^9 ns returns 30; indexToTimestamp 30 lies in
[999 966 666, 1 001 000 000] ns (its exact value is 1 001 000 000 ns,
above the upper end claimed by the spec); and for every index in
[0, 10^6], timestampToIndex (indexToTimestamp index) = index. -/
theorem C4_ntsc_amended :
    timestampToIndex ⟨30000, 1001⟩ ⟨1000000000⟩ = 30 ∧
    999966666 ≤ (indexToTimestamp ⟨30000, 1001⟩ 30).value ∧
    (indexToTimestamp ⟨30000, 1001⟩ 30).value ≤ 1001000000 ∧
    ∀ i : Nat, i ≤ 1000000 →
      timestampToIndex ⟨30000, 1001⟩ (indexToTimestamp ⟨30000, 1001⟩ i)
        = i := by
  refine ⟨by decide, by decide, by decide, ?_⟩
  intro i hile
  have hiZ : (i : Int) ≤ 1000000 := by exact_mod_cast hile
  apply roundtrip_index 30000 1001 i (by norm_num) (by norm_num)
    (by norm_num) (by omega)
  have h1 : ((i : Int) * 1001 * 1000000000 + (30000 : Int) / 2)
      ≤ (1000000 : Int) * 1001 * 1000000000 + (30000 : Int) / 2 := by
    nlinarith
  have h2 := Int.ediv_le_ediv (by norm_num : (0 : Int) < 30000) h1
  have h3 : ((1000000 : Int) * 1001 * 1000000000 + (30000 : Int) / 2) / 30000 <
      9223372036854775808 := by decide
  omega

/-- Witness for `C4_ntsc_amended` instantiating the universally quantified
round-trip part at index 30. -/
theorem C4_ntsc_amended_witness :
    (30 : Nat) ≤ 1000000 ∧
    timestampToIndex ⟨30000, 1001⟩ (indexToTimestamp ⟨30000, 1001⟩ 30)
      = 30 :=
  ⟨by decide, C4_ntsc_amended.2.2.2 30 (by decide)⟩

/-!
## FlowSynchronizationGroup

Shallow embedding of `FlowSynchronizationGroup` (header and source).

  - Reader identity (`FlowReader const*` pointer) is modelled by a `Nat` id;
    the entry list `std::forward_list<ListEntry>` by `List ListEntry`.
  - `mxlStatus` is modelled by `Nat` with `MXL_STATUS_OK = 0`.
  - The outside world consulted by `waitForDataAt` — each reader's
    `getFlowRuntimeInfo().headIndex` snapshot, the results of
    `waitForGrain` / `waitForSamples`, and `currentTime(Clock::TAI)` — is an
    oracle `SyncEnv` keyed by reader id (the world is taken as quiescent
    within one `waitForDataAt` call).
  - `std::forward_list::splice_after(before_begin(), _readers, current)`
    moves the element FOLLOWING `current` to the front; when `current` is
    the last node the C++ behavior is undefined, which the embedding makes
    explicit by returning `none`.
  - The loop is fuelled; the fuel chosen in `waitForDataAt` dominates every
    terminating traversal, and theorems are stated about runs that return
    `some` result.
-/

/-- `MXL_STATUS_OK` (mxlStatus is an enum starting at OK = 0). -/
def MXL_STATUS_OK : Nat := 0

/-- `FlowSynchronizationGroup::Variant`. -/
inductive Variant
  | Discrete
  | Continuous
deriving DecidableEq, Repr

/-- `FlowSynchronizationGroup::ListEntry` — `reader` models the
`FlowReader const*` pointer by an id. -/
structure ListEntry where
  reader : Nat
  minValidSlices : Nat
  variant : Variant
  grainRate : mxlRational
  maxObservedSourceDelay : Int
deriving DecidableEq, Repr

/-- `ListEntry(DiscreteFlowReader const&, uint16_t)`: delegates to the base
constructor (zero `minValidSlices` and `maxObservedSourceDelay`, grain rate
read from the reader's config — passed here as `rate`), then assigns
`minValidSlices`. -/
def mkDiscreteEntry (rid : Nat) (mvs : Nat) (rate : mxlRational) : ListEntry :=
  { reader := rid, minValidSlices := mvs, variant := Variant.Discrete,
    grainRate := rate, maxObservedSourceDelay := 0 }

/-- `ListEntry(ContinuousFlowReader const&)`: base constructor only. -/
def mkContinuousEntry (rid : Nat) (rate : mxlRational) : ListEntry :=
  { reader := rid, minValidSlices := 0, variant := Variant.Continuous,
    grainRate := rate, maxObservedSourceDelay := 0 }

/-- `addReader(DiscreteFlowReader const&, uint16_t)`: walk the list; on a
pointer match update that entry's `minValidSlices` and stop; otherwise
append a new entry at the tail (`emplace_after` of the trailing
iterator). -/
def addReaderDiscrete (rid : Nat) (mvs : Nat) (rate : mxlRational) :
    List ListEntry → List ListEntry
  | [] => [mkDiscreteEntry rid mvs rate]
  | e :: rest =>
    if e.reader = rid then { e with minValidSlices := mvs } :: rest
    else e :: addReaderDiscrete rid mvs rate rest

/-- `addReader(ContinuousFlowReader const&)`: walk the list; on a pointer
match return unchanged; otherwise append a new entry at the tail. -/
def addReaderContinuous (rid : Nat) (rate : mxlRational) :
    List ListEntry → List ListEntry
  | [] => [mkContinuousEntry rid rate]
  | e :: rest =>
    if e.reader = rid then e :: rest
    else e :: addReaderContinuous rid rate rest

/-- `removeReader(FlowReader const&)`: erase the first entry whose pointer
matches; no-op when absent. -/
def removeReader (rid : Nat) : List ListEntry → List ListEntry
  | [] => []
  | e :: rest => if e.reader = rid then rest else e :: removeReader rid rest

/-- Oracle for the world outside the group, keyed by reader id:
`headIndex` is the reader's `getFlowRuntimeInfo().headIndex` snapshot,
`grainWait`/`samplesWait` the results of `waitForGrain`/`waitForSamples`,
and `taiNow` the `currentTime(Clock::TAI)` reading taken while processing
that reader's entry. -/
structure SyncEnv where
  headIndex : Nat → Nat
  grainWait : Nat → Nat → Nat → Int → Nat
  samplesWait : Nat → Nat → Int → Nat
  taiNow : Nat → Int

/-- The `switch (current->variant)` dispatch to `waitForGrain` or
`waitForSamples`. -/
def waitRes (env : SyncEnv) (deadline : Int) (e : ListEntry)
    (expectedIndex : Nat) : Nat :=
  match e.variant with
  | Variant.Discrete => env.grainWait e.reader expectedIndex e.minValidSlices deadline
  | Variant.Continuous => env.samplesWait e.reader expectedIndex deadline

/-- Reader id of the node following the node `rid` (the iterator `it` after
`auto const current = it++`); `none` when `rid` is last or absent. -/
def succOf (l : List ListEntry) (rid : Nat) : Option Nat :=
  match l with
  | [] => none
  | e :: rest =>
    if e.reader = rid then (rest.head?).map ListEntry.reader
    else succOf rest rid

/-- In-place update `current->maxObservedSourceDelay = v` of the (first)
node with id `rid`. -/
def updMax (rid : Nat) (v : Int) : List ListEntry → List ListEntry
  | [] => []
  | e :: rest =>
    if e.reader = rid then { e with maxObservedSourceDelay := v } :: rest
    else e :: updMax rid v rest

/-- `_readers.begin()->maxObservedSourceDelay` (the loop only evaluates it
on a nonempty list). -/
def headDelay : List ListEntry → Int
  | [] => 0
  | e :: _ => e.maxObservedSourceDelay

/-- Unlink the (first) node with id `rid` from the list, returning it and
the remaining list. -/
def extractNode : List ListEntry → Nat → Option (ListEntry × List ListEntry)
  | [], _ => none
  | e :: rest, rid =>
    if e.reader = rid then some (e, rest)
    else
      match extractNode rest rid with
      | some (x, rest2) => some (x, e :: rest2)
      | none => none

/-- `splice_after(before_begin(), _readers, current)` relinks the node that
follows `current` — here already resolved to its id `rid` — to the front;
every other node keeps its relative position. -/
def moveToFront (l : List ListEntry) (rid : Nat) : List ListEntry :=
  match extractNode l rid with
  | some (x, rest) => x :: rest
  | none => l

/-- Events recorded while `waitForDataAt` runs: entry visits, blocking
waits with their status, and splices (named by the id of the moved
entry). -/
inductive SyncEv
  | visited (rid : Nat)
  | waited (rid : Nat) (res : Nat)
  | spliced (rid : Nat)
deriving DecidableEq, Repr

/-- The loop body of `FlowSynchronizationGroup::waitForDataAt`, fuelled.
Position is the id of the node `it` points to (`none` = `end()`).
Returns `none` on fuel exhaustion or on the undefined `splice_after` of a
last node; otherwise `some (status, final list, event trace)`. -/
def waitLoop (env : SyncEnv) (origin deadline : Int) :
    Nat → List ListEntry → Option Nat → List SyncEv →
      Option (Nat × List ListEntry × List SyncEv)
  | _, l, none, tr => some (MXL_STATUS_OK, l, tr)
  | 0, _, some _, _ => none
  | fuel + 1, l, some rid, tr =>
    match l.find? (fun e => e.reader = rid) with
    | none => some (MXL_STATUS_OK, l, tr)
    | some c =>
      let nxt := succOf l rid
      let tr1 := tr ++ [SyncEv.visited rid]
      let expectedIndex := timestampToIndex c.grainRate ⟨origin⟩
      if env.headIndex rid < expectedIndex then
        let res := waitRes env deadline c expectedIndex
        let tr2 := tr1 ++ [SyncEv.waited rid res]
        if res = MXL_STATUS_OK then
          let arrival := (indexToTimestamp c.grainRate expectedIndex).value
          let tai := env.taiNow rid
          if arrival < tai then
            let delay := tai - arrival
            if c.maxObservedSourceDelay < delay then
              let l1 := updMax rid delay l
              if headDelay l1 < delay then
                match nxt with
                | none => none
                | some x =>
                  waitLoop env origin deadline fuel (moveToFront l1 x)
                    (some x) (tr2 ++ [SyncEv.spliced x])
              else waitLoop env origin deadline fuel l1 nxt tr2
            else waitLoop env origin deadline fuel l nxt tr2
          else waitLoop env origin deadline fuel l nxt tr2
        else some (res, l, tr2)
      else waitLoop env origin deadline fuel l nxt tr1

/-- `FlowSynchronizationGroup::waitForDataAt(originTime, deadline)`:
traverse from the head with enough fuel for every terminating
traversal. -/
def waitForDataAt (env : SyncEnv) (origin deadline : Int)
    (l : List ListEntry) : Option (Nat × List ListEntry × List SyncEv) :=
  waitLoop env origin deadline ((l.length + 1) * (l.length + 2)) l
    ((l.head?).map ListEntry.reader) []

/-- Reader ids of a list of entries, in order. -/
def ids (l : List ListEntry) : List Nat := l.map ListEntry.reader

/-- The `expectedIndex` computed for an entry inside `waitForDataAt`. -/
def expectedIdx (origin : Int) (e : ListEntry) : Nat :=
  timestampToIndex e.grainRate ⟨origin⟩

/-- The entry's reader has data at `expectedIndex` or better: either the
head index snapshot already covers it, or the blocking wait succeeds. -/
def satisfied (env : SyncEnv) (origin deadline : Int) (e : ListEntry) : Prop :=
  expectedIdx origin e ≤ env.headIndex e.reader ∨
    waitRes env deadline e (expectedIdx origin e) = MXL_STATUS_OK

instance (env : SyncEnv) (origin deadline : Int) (e : ListEntry) :
    Decidable (satisfied env origin deadline e) := by
  unfold satisfied
  infer_instance

/-- Two entries that agree on every field except
`maxObservedSourceDelay`. -/
def sameCore (a b : ListEntry) : Prop :=
  a.reader = b.reader ∧ a.minValidSlices = b.minValidSlices ∧
    a.variant = b.variant ∧ a.grainRate = b.grainRate

theorem sameCore_refl (a : ListEntry) : sameCore a a :=
  ⟨rfl, rfl, rfl, rfl⟩

theorem sameCore_trans {a b c : ListEntry} (h1 : sameCore a b)
    (h2 : sameCore b c) : sameCore a c :=
  ⟨h1.1.trans h2.1, h1.2.1.trans h2.2.1, h1.2.2.1.trans h2.2.2.1,
    h1.2.2.2.trans h2.2.2.2⟩

theorem sameCore_upd (e : ListEntry) (v : Int) :
    sameCore e { e with maxObservedSourceDelay := v } :=
  ⟨rfl, rfl, rfl, rfl⟩

theorem expectedIdx_congr {a b : ListEntry} (h : sameCore a b)
    (origin : Int) : expectedIdx origin a = expectedIdx origin b := by
  unfold expectedIdx
  rw [h.2.2.2]

theorem satisfied_congr (env : SyncEnv) (origin deadline : Int)
    {a b : ListEntry} (h : sameCore a b) :
    satisfied env origin deadline a ↔ satisfied env origin deadline b := by
  unfold satisfied waitRes
  rw [expectedIdx_congr h, h.1, h.2.1, h.2.2.1]

/-- `updMax` keeps the reader ids (and hence positions) unchanged. -/
theorem ids_updMax (rid : Nat) (v : Int) (l : List ListEntry) :
    ids (updMax rid v l) = ids l := by
  induction l with
  | nil => rfl
  | cons e rest ih =>
    unfold updMax
    by_cases h : e.reader = rid
    · simp [h, ids]
    · simp only [if_neg h, ids, List.map_cons]
      rw [show List.map ListEntry.reader (updMax rid v rest)
        = List.map ListEntry.reader rest from ih]

/-- Every member of `updMax rid v l` is a member of `l`, either untouched
or with only its `maxObservedSourceDelay` set to `v`. -/
theorem mem_updMax {rid : Nat} {v : Int} {l : List ListEntry} {x : ListEntry}
    (hx : x ∈ updMax rid v l) :
    ∃ e ∈ l, x = e ∨
      (e.reader = rid ∧ x = { e with maxObservedSourceDelay := v }) := by
  induction l with
  | nil => cases hx
  | cons e rest ih =>
    unfold updMax at hx
    by_cases h : e.reader = rid
    · rw [if_pos h] at hx
      rcases List.mem_cons.mp hx with h1 | h1
      · exact ⟨e, List.mem_cons_self e rest, Or.inr ⟨h, h1⟩⟩
      · exact ⟨x, List.mem_cons_of_mem e h1, Or.inl rfl⟩
    · rw [if_neg h] at hx
      rcases List.mem_cons.mp hx with h1 | h1
      · exact ⟨e, List.mem_cons_self e rest, Or.inl h1⟩
      · rcases ih h1 with ⟨e2, he2, hor⟩
        exact ⟨e2, List.mem_cons_of_mem e he2, hor⟩

/-- Every member of `l` survives in `updMax rid v l`, either untouched or
with only its `maxObservedSourceDelay` set to `v`. -/
theorem mem_updMax_rev (rid : Nat) (v : Int) {l : List ListEntry}
    {e : ListEntry} (he : e ∈ l) :
    ∃ x ∈ updMax rid v l, x = e ∨
      (e.reader = rid ∧ x = { e with maxObservedSourceDelay := v }) := by
  induction l with
  | nil => cases he
  | cons a rest ih =>
    unfold updMax
    by_cases h : a.reader = rid
    · rw [if_pos h]
      rcases List.mem_cons.mp he with h1 | h1
      · subst h1
        exact ⟨{ e with maxObservedSourceDelay := v },
          List.mem_cons_self _ _, Or.inr ⟨h, rfl⟩⟩
      · exact ⟨e, List.mem_cons_of_mem _ h1, Or.inl rfl⟩
    · rw [if_neg h]
      rcases List.mem_cons.mp he with h1 | h1
      · subst h1
        exact ⟨e, List.mem_cons_self _ _, Or.inl rfl⟩
      · rcases ih h1 with ⟨x, hx, hor⟩
        exact ⟨x, List.mem_cons_of_mem _ hx, hor⟩

/-- Structure of a successful node extraction: the list splits around the
first node carrying `rid`. -/
theorem extractNode_some {l : List ListEntry} {rid : Nat} {x : ListEntry}
    {rest : List ListEntry} (h : extractNode l rid = some (x, rest)) :
    x.reader = rid ∧ ∃ l1 l2, (∀ y ∈ l1, ¬ y.reader = rid) ∧
      l = l1 ++ x :: l2 ∧ rest = l1 ++ l2 := by
  induction l generalizing rest with
  | nil => cases h
  | cons e tail ih =>
    unfold extractNode at h
    by_cases he : e.reader = rid
    · rw [if_pos he] at h
      cases h
      exact ⟨he, [], tail, by simp, rfl, rfl⟩
    · rw [if_neg he] at h
      cases hrec : extractNode tail rid with
      | none => rw [hrec] at h; cases h
      | some pr =>
        rw [hrec] at h
        cases pr with
        | mk x2 rest2 =>
          simp only [Option.some.injEq, Prod.mk.injEq] at h
          rcases h with ⟨hx, hrest⟩
          subst hx
          rcases ih hrec with ⟨hxr, l1, l2, hnone, hsplit, hres⟩
          refine ⟨hxr, e :: l1, l2, ?_, by rw [hsplit]; rfl, ?_⟩
          · intro y hy
            rcases List.mem_cons.mp hy with h1 | h1
            · rwa [h1]
            · exact hnone y h1
          · rw [← hrest, hres]
            rfl

/-- A failed extraction means the id is absent. -/
theorem extractNode_none {l : List ListEntry} {rid : Nat}
    (h : extractNode l rid = none) : rid ∉ ids l := by
  induction l with
  | nil => simp [ids]
  | cons e tail ih =>
    unfold extractNode at h
    by_cases he : e.reader = rid
    · rw [if_pos he] at h; cases h
    · rw [if_neg he] at h
      cases hrec : extractNode tail rid with
      | none =>
        intro hmem
        rcases List.mem_cons.mp hmem with h1 | h1
        · exact he h1.symm
        · exact ih hrec h1
      | some pr => rw [hrec] at h; cases pr; cases h

/-- `moveToFront` permutes the list (it relinks a single node). -/
theorem moveToFront_perm (l : List ListEntry) (rid : Nat) :
    (moveToFront l rid).Perm l := by
  unfold moveToFront
  cases hx : extractNode l rid with
  | none => exact List.Perm.refl l
  | some pr =>
    cases pr with
    | mk x rest =>
      rcases extractNode_some hx with ⟨_, l1, l2, _, hsplit, hres⟩
      rw [hsplit, hres]
      exact (List.perm_middle).symm

/-- A successor returned by `succOf` is a member id. -/
theorem succOf_mem {l : List ListEntry} {rid m : Nat}
    (h : succOf l rid = some m) : m ∈ ids l := by
  induction l with
  | nil => cases h
  | cons e rest ih =>
    unfold succOf at h
    by_cases he : e.reader = rid
    · rw [if_pos he] at h
      cases rest with
      | nil => cases h
      | cons r rest2 =>
        simp only [List.head?_cons, Option.map_some] at h
        cases h
        exact List.mem_cons_of_mem _ (List.mem_cons_self _ _)
    · rw [if_neg he] at h
      exact List.mem_cons_of_mem _ (ih h)

/-- The suffix of the entry list from the node carrying a given id
(`[]` past the end or when the id is absent). -/
def suffixFrom : List ListEntry → Option Nat → List ListEntry
  | _, none => []
  | [], some _ => []
  | e :: rest, some rid =>
    if e.reader = rid then e :: rest else suffixFrom rest (some rid)

theorem suffixFrom_none (l : List ListEntry) : suffixFrom l none = [] := by
  cases l <;> rfl

theorem suffixFrom_nil (pos : Option Nat) : suffixFrom [] pos = [] := by
  cases pos <;> rfl

theorem suffixFrom_cons (e : ListEntry) (rest : List ListEntry) (rid : Nat) :
    suffixFrom (e :: rest) (some rid)
      = if e.reader = rid then e :: rest else suffixFrom rest (some rid) :=
  rfl

theorem mem_suffixFrom {l : List ListEntry} {pos : Option Nat} {e : ListEntry}
    (h : e ∈ suffixFrom l pos) : e ∈ l := by
  cases pos with
  | none => rw [suffixFrom_none] at h; cases h
  | some rid =>
    induction l with
    | nil => rw [suffixFrom_nil] at h; cases h
    | cons a rest ih =>
      rw [suffixFrom_cons] at h
      by_cases ha : a.reader = rid
      · rwa [if_pos ha] at h
      · rw [if_neg ha] at h
        exact List.mem_cons_of_mem _ (ih h)

theorem suffixFrom_of_not_mem {l : List ListEntry} {rid : Nat}
    (h : rid ∉ ids l) : suffixFrom l (some rid) = [] := by
  induction l with
  | nil => rfl
  | cons e rest ih =>
    rw [suffixFrom_cons]
    rw [if_neg (fun he => h (by rw [← he]; exact List.mem_cons_self _ _))]
    exact ih (fun hm => h (List.mem_cons_of_mem _ hm))

theorem updMax_of_not_mem {l : List ListEntry} {rid : Nat} (v : Int)
    (h : rid ∉ ids l) : updMax rid v l = l := by
  induction l with
  | nil => rfl
  | cons e rest ih =>
    unfold updMax
    rw [if_neg (fun he => h (by rw [← he]; exact List.mem_cons_self _ _))]
    rw [ih (fun hm => h (List.mem_cons_of_mem _ hm))]

theorem updMax_nil (rid : Nat) (v : Int) : updMax rid v [] = [] := rfl

theorem updMax_cons (rid : Nat) (v : Int) (e : ListEntry)
    (rest : List ListEntry) :
    updMax rid v (e :: rest)
      = if e.reader = rid then { e with maxObservedSourceDelay := v } :: rest
        else e :: updMax rid v rest :=
  rfl

theorem succOf_cons (e : ListEntry) (rest : List ListEntry) (rid : Nat) :
    succOf (e :: rest) rid
      = if e.reader = rid then (rest.head?).map ListEntry.reader
        else succOf rest rid :=
  rfl

/-- Advancing one node: under distinct ids, the suffix at a node is that
node consed onto the suffix at its successor. -/
theorem suffix_step {l : List ListEntry} {rid : Nat} {c : ListEntry}
    (hnd : (ids l).Nodup)
    (hfind : l.find? (fun e => e.reader = rid) = some c) :
    suffixFrom l (some rid) = c :: suffixFrom l (succOf l rid) := by
  induction l with
  | nil => cases hfind
  | cons e rest ih =>
    have hnd2 : (ids rest).Nodup := (List.nodup_cons.mp hnd).2
    have hnotin : e.reader ∉ ids rest := (List.nodup_cons.mp hnd).1
    by_cases he : e.reader = rid
    · rw [List.find?_cons_of_pos _ (by simp [he])] at hfind
      cases hfind
      rw [suffixFrom_cons, if_pos he, succOf_cons, if_pos he]
      cases rest with
      | nil => rfl
      | cons r rest2 =>
        have hne : ¬r.reader = rid := by
          intro hr
          exact hnotin (by rw [he, ← hr]; exact List.mem_cons_self _ _)
        rw [show Option.map ListEntry.reader ((r :: rest2).head?)
            = some r.reader from rfl]
        rw [suffixFrom_cons,
          if_neg (show ¬(c.reader = r.reader) from
            fun h => hne (by rw [← h, he]))]
        rw [suffixFrom_cons, if_pos rfl]
    · rw [List.find?_cons_of_neg _ (by simp [he])] at hfind
      have hrec := ih hnd2 hfind
      rw [suffixFrom_cons, if_neg he, succOf_cons, if_neg he, hrec]
      cases hsucc : succOf rest rid with
      | none => rw [suffixFrom_none, suffixFrom_none]
      | some m =>
        have hm : m ∈ ids rest := succOf_mem hsucc
        have hne : ¬e.reader = m := fun h => hnotin (h ▸ hm)
        rw [suffixFrom_cons, if_neg hne]

/-- `updMax` commutes with taking the suffix, under distinct ids. -/
theorem suffixFrom_updMax {l : List ListEntry} {rid : Nat} (v : Int)
    (pos : Option Nat) (hnd : (ids l).Nodup) :
    suffixFrom (updMax rid v l) pos = updMax rid v (suffixFrom l pos) := by
  cases pos with
  | none => rw [suffixFrom_none, suffixFrom_none]; rfl
  | some prid =>
    induction l with
    | nil => rfl
    | cons e rest ih =>
      have hnd2 : (ids rest).Nodup := (List.nodup_cons.mp hnd).2
      have hnotin : e.reader ∉ ids rest := (List.nodup_cons.mp hnd).1
      by_cases her : e.reader = rid
      · rw [updMax_cons, if_pos her]
        by_cases hep : e.reader = prid
        · rw [suffixFrom_cons, suffixFrom_cons,
            if_pos (show ({ e with maxObservedSourceDelay := v } :
              ListEntry).reader = prid from hep), if_pos hep]
          rw [updMax_cons, if_pos her]
        · rw [suffixFrom_cons, suffixFrom_cons,
            if_neg (show ¬(({ e with maxObservedSourceDelay := v } :
              ListEntry).reader = prid) from hep), if_neg hep]
          have hnot : rid ∉ ids (suffixFrom rest (some prid)) := by
            intro hmem
            rcases List.mem_map.mp hmem with ⟨x, hx, hxr⟩
            exact hnotin (her ▸ hxr ▸
              List.mem_map_of_mem ListEntry.reader (mem_suffixFrom hx))
          rw [updMax_of_not_mem v hnot]
      · rw [updMax_cons, if_neg her]
        by_cases hep : e.reader = prid
        · rw [suffixFrom_cons, suffixFrom_cons, if_pos hep, if_pos hep]
          rw [updMax_cons, if_neg her]
        · rw [suffixFrom_cons, suffixFrom_cons, if_neg hep, if_neg hep]
          exact ih hnd2

/-- The `expectedArrivalTime` computed for an entry inside
`waitForDataAt`. -/
def arrivalOf (origin : Int) (c : ListEntry) : Int :=
  (indexToTimestamp c.grainRate (expectedIdx origin c)).value

/-- The `sourceDelay` computed for the entry at position `rid` inside
`waitForDataAt`. -/
def srcDelay (env : SyncEnv) (origin : Int) (rid : Nat) (c : ListEntry) : Int :=
  env.taiNow rid - arrivalOf origin c

/-- One unfolding of the fuelled loop at a live position. -/
theorem waitLoop_succ (env : SyncEnv) (origin deadline : Int) (fuel : Nat)
    (l : List ListEntry) (rid : Nat) (tr : List SyncEv) :
    waitLoop env origin deadline (fuel + 1) l (some rid) tr
      = match l.find? (fun e => e.reader = rid) with
        | none => some (MXL_STATUS_OK, l, tr)
        | some c =>
          if env.headIndex rid < expectedIdx origin c then
            (if waitRes env deadline c (expectedIdx origin c)
                = MXL_STATUS_OK then
              (if arrivalOf origin c < env.taiNow rid then
                (if c.maxObservedSourceDelay < srcDelay env origin rid c then
                  (if headDelay (updMax rid (srcDelay env origin rid c) l)
                      < srcDelay env origin rid c then
                    (match succOf l rid with
                      | none => none
                      | some x =>
                        waitLoop env origin deadline fuel
                          (moveToFront
                            (updMax rid (srcDelay env origin rid c) l) x)
                          (some x)
                          (((tr ++ [SyncEv.visited rid]) ++
                            [SyncEv.waited rid (waitRes env deadline c
                              (expectedIdx origin c))]) ++
                            [SyncEv.spliced x]))
                  else
                    waitLoop env origin deadline fuel
                      (updMax rid (srcDelay env origin rid c) l)
                      (succOf l rid)
                      ((tr ++ [SyncEv.visited rid]) ++
                        [SyncEv.waited rid (waitRes env deadline c
                          (expectedIdx origin c))]))
                else
                  waitLoop env origin deadline fuel l (succOf l rid)
                    ((tr ++ [SyncEv.visited rid]) ++
                      [SyncEv.waited rid (waitRes env deadline c
                        (expectedIdx origin c))]))
              else
                waitLoop env origin deadline fuel l (succOf l rid)
                  ((tr ++ [SyncEv.visited rid]) ++
                    [SyncEv.waited rid (waitRes env deadline c
                      (expectedIdx origin c))]))
            else
              some (waitRes env deadline c (expectedIdx origin c), l,
                (tr ++ [SyncEv.visited rid]) ++
                  [SyncEv.waited rid (waitRes env deadline c
                    (expectedIdx origin c))]))
          else
            waitLoop env origin deadline fuel l (succOf l rid)
              (tr ++ [SyncEv.visited rid]) :=
  rfl

/-- The loop at the end position. -/
theorem waitLoop_none (env : SyncEnv) (origin deadline : Int) (fuel : Nat)
    (l : List ListEntry) (tr : List SyncEv) :
    waitLoop env origin deadline fuel l none tr
      = some (MXL_STATUS_OK, l, tr) := by
  cases fuel <;> rfl

/-- The loop out of fuel. -/
theorem waitLoop_zero (env : SyncEnv) (origin deadline : Int)
    (l : List ListEntry) (rid : Nat) (tr : List SyncEv) :
    waitLoop env origin deadline 0 l (some rid) tr = none :=
  rfl

/-- The `find?` used by the loop returns an entry with the requested id. -/
theorem find?_reader {l : List ListEntry} {rid : Nat} {c : ListEntry}
    (h : l.find? (fun e => e.reader = rid) = some c) : c.reader = rid := by
  have := List.find?_some h
  simpa using this

/-- Under distinct ids, any member carrying the id equals the `find?`
result. -/
theorem mem_eq_find? {l : List ListEntry} {rid : Nat} {c e : ListEntry}
    (hnd : (ids l).Nodup)
    (hfind : l.find? (fun x => x.reader = rid) = some c)
    (he : e ∈ l) (her : e.reader = rid) : e = c := by
  induction l with
  | nil => cases he
  | cons a rest ih =>
    have hnd2 : (ids rest).Nodup := (List.nodup_cons.mp hnd).2
    have hnotin : a.reader ∉ ids rest := (List.nodup_cons.mp hnd).1
    by_cases ha : a.reader = rid
    · rw [List.find?_cons_of_pos _ (by simp [ha])] at hfind
      cases hfind
      rcases List.mem_cons.mp he with rfl | hmem
      · rfl
      · exact absurd (her ▸ List.mem_map_of_mem ListEntry.reader hmem)
          (ha ▸ hnotin)
    · rw [List.find?_cons_of_neg _ (by simp [ha])] at hfind
      rcases List.mem_cons.mp he with rfl | hmem
      · exact absurd her ha
      · exact ih hnd2 hfind hmem

/-- Extraction succeeds exactly on present ids. -/
theorem extractNode_total {l : List ListEntry} {rid : Nat}
    (h : rid ∈ ids l) : ∃ pr, extractNode l rid = some pr := by
  cases hx : extractNode l rid with
  | none => exact absurd h (extractNode_none hx)
  | some pr => exact ⟨pr, rfl⟩

/-- When the id is present, `moveToFront` brings its node to the head,
keeping everything else in order. -/
theorem moveToFront_shape {l : List ListEntry} {rid : Nat}
    (h : rid ∈ ids l) :
    ∃ x l1 l2, x.reader = rid ∧ (∀ y ∈ l1, ¬ y.reader = rid) ∧
      l = l1 ++ x :: l2 ∧ moveToFront l rid = x :: (l1 ++ l2) := by
  rcases extractNode_total h with ⟨⟨x, rest⟩, hx⟩
  rcases extractNode_some hx with ⟨hxr, l1, l2, hl1, hsplit, hrest⟩
  refine ⟨x, l1, l2, hxr, hl1, hsplit, ?_⟩
  unfold moveToFront
  rw [hx, hrest]

theorem satisfied_all_updMax {env : SyncEnv} {origin deadline : Int}
    {rid : Nat} {v : Int} {l : List ListEntry}
    (hsat : ∀ e ∈ l, satisfied env origin deadline e) :
    ∀ e ∈ updMax rid v l, satisfied env origin deadline e := by
  intro e he
  rcases mem_updMax he with ⟨e0, he0, hor⟩
  rcases hor with heq | ⟨_, heq⟩
  · rw [heq]; exact hsat e0 he0
  · rw [heq]
    exact (satisfied_congr env origin deadline (sameCore_upd e0 v)).mp
      (hsat e0 he0)

theorem satisfied_all_perm {env : SyncEnv} {origin deadline : Int}
    {l l2 : List ListEntry} (hperm : l2.Perm l)
    (hsat : ∀ e ∈ l, satisfied env origin deadline e) :
    ∀ e ∈ l2, satisfied env origin deadline e :=
  fun e he => hsat e (hperm.mem_iff.mp he)

theorem arrivalOf_congr {a b : ListEntry} (h : sameCore a b) (origin : Int) :
    arrivalOf origin a = arrivalOf origin b := by
  unfold arrivalOf
  rw [expectedIdx_congr h, h.2.2.2]

theorem waitRes_congr (env : SyncEnv) (deadline : Int) {a b : ListEntry}
    (h : sameCore a b) (idx : Nat) :
    waitRes env deadline a idx = waitRes env deadline b idx := by
  unfold waitRes
  rw [h.1, h.2.1, h.2.2.1]

/-- How one entry's state can evolve across a `waitForDataAt` call: either
`maxObservedSourceDelay` is untouched, or it strictly increases to the
observed source delay, and then only because the snapshot missed the
expected index, the blocking wait succeeded, and the TAI clock read after
the wait exceeded the expected arrival time. -/
def delayEvolves (env : SyncEnv) (origin deadline : Int)
    (e e2 : ListEntry) : Prop :=
  sameCore e e2 ∧
    (e2.maxObservedSourceDelay = e.maxObservedSourceDelay ∨
      (e.maxObservedSourceDelay < e2.maxObservedSourceDelay ∧
        env.headIndex e.reader < expectedIdx origin e ∧
        waitRes env deadline e (expectedIdx origin e) = MXL_STATUS_OK ∧
        arrivalOf origin e < env.taiNow e.reader ∧
        e2.maxObservedSourceDelay = srcDelay env origin e.reader e))

theorem delayEvolves_refl (env : SyncEnv) (origin deadline : Int)
    (e : ListEntry) : delayEvolves env origin deadline e e :=
  ⟨sameCore_refl e, Or.inl rfl⟩

theorem delayEvolves_trans {env : SyncEnv} {origin deadline : Int}
    {a b c : ListEntry} (h1 : delayEvolves env origin deadline a b)
    (h2 : delayEvolves env origin deadline b c) :
    delayEvolves env origin deadline a c := by
  rcases h1 with ⟨hc1, h1⟩
  rcases h2 with ⟨hc2, h2⟩
  refine ⟨sameCore_trans hc1 hc2, ?_⟩
  have hread : b.reader = a.reader := hc1.1.symm
  have hexp : expectedIdx origin b = expectedIdx origin a :=
    (expectedIdx_congr hc1 origin).symm
  have harr : arrivalOf origin b = arrivalOf origin a :=
    (arrivalOf_congr hc1 origin).symm
  have hwait : ∀ idx, waitRes env deadline b idx = waitRes env deadline a idx :=
    fun idx => (waitRes_congr env deadline hc1 idx).symm
  have hsd : srcDelay env origin b.reader b = srcDelay env origin a.reader a := by
    unfold srcDelay
    rw [hread, harr]
  rcases h2 with h2 | ⟨hlt2, hh2, hw2, ha2, he2⟩
  · rcases h1 with h1 | ⟨hlt1, hh1, hw1, ha1, he1⟩
    · exact Or.inl (h2.trans h1)
    · exact Or.inr ⟨h2 ▸ hlt1, hh1, hw1, ha1, h2 ▸ he1⟩
  · rcases h1 with h1 | ⟨hlt1, hh1, hw1, ha1, he1⟩
    · rw [h1] at hlt2
      rw [hread, hexp] at hh2
      rw [hwait, hexp] at hw2
      rw [harr, hread] at ha2
      rw [hsd] at he2
      exact Or.inr ⟨hlt2, hh2, hw2, ha2, he2⟩
    · rw [hsd] at he2
      exact Or.inr ⟨hlt1.trans hlt2, hh1, hw1, ha1, he2⟩

/-- One-step pointwise delay evolution across `updMax` performed by the
loop at position `rid` on entry `c`, under the loop's guard conditions. -/
theorem delayEvolves_updMax {env : SyncEnv} {origin : Int} (deadline : Int)
    {l : List ListEntry} {rid : Nat} {c : ListEntry}
    (hnd : (ids l).Nodup)
    (hfind : l.find? (fun e => e.reader = rid) = some c)
    (h1 : env.headIndex rid < expectedIdx origin c)
    (h2 : waitRes env deadline c (expectedIdx origin c) = MXL_STATUS_OK)
    (h3 : arrivalOf origin c < env.taiNow rid)
    (h4 : c.maxObservedSourceDelay < srcDelay env origin rid c) :
    ∀ x ∈ updMax rid (srcDelay env origin rid c) l,
      ∃ e ∈ l, delayEvolves env origin deadline e x := by
  intro x hx
  rcases mem_updMax hx with ⟨e, he, hor⟩
  rcases hor with heq | ⟨her, heq⟩
  · refine ⟨e, he, ?_⟩
    rw [heq]
    exact delayEvolves_refl env origin deadline e
  · have hec : e = c := mem_eq_find? hnd hfind he her
    subst hec
    refine ⟨e, he, ?_⟩
    rw [heq]
    refine ⟨sameCore_upd e _, Or.inr ⟨h4, ?_, h2, ?_, ?_⟩⟩
    · rw [her]; exact h1
    · rw [her]; exact h3
    · rw [her]

/-- Satisfaction analysis of the loop: when it reaches the end it has
witnessed data (present or successfully waited for) for every entry from
its position onward, and when every entry of the list has data it cannot
return a failure. -/
theorem waitLoop_sat (env : SyncEnv) (origin deadline : Int) :
    ∀ (fuel : Nat) (l : List ListEntry) (pos : Option Nat) (tr : List SyncEv)
      (st : Nat) (l2 : List ListEntry) (tr2 : List SyncEv),
      (ids l).Nodup →
      waitLoop env origin deadline fuel l pos tr = some (st, l2, tr2) →
      (st = MXL_STATUS_OK →
          ∀ e ∈ suffixFrom l pos, satisfied env origin deadline e) ∧
        ((∀ e ∈ l, satisfied env origin deadline e) → st = MXL_STATUS_OK) := by
  intro fuel
  induction fuel with
  | zero =>
    intro l pos tr st l2 tr2 hnd hrun
    cases pos with
    | none =>
      rw [waitLoop_none] at hrun
      simp only [Option.some.injEq, Prod.mk.injEq] at hrun
      obtain ⟨hst, -, -⟩ := hrun
      constructor
      · intro _ e he
        rw [suffixFrom_none] at he
        cases he
      · intro _
        exact hst.symm
    | some rid =>
      rw [waitLoop_zero] at hrun
      cases hrun
  | succ fuel ih =>
    intro l pos tr st l2 tr2 hnd hrun
    cases pos with
    | none =>
      rw [waitLoop_none] at hrun
      simp only [Option.some.injEq, Prod.mk.injEq] at hrun
      obtain ⟨hst, -, -⟩ := hrun
      constructor
      · intro _ e he
        rw [suffixFrom_none] at he
        cases he
      · intro _
        exact hst.symm
    | some rid =>
      rw [waitLoop_succ] at hrun
      cases hfind : l.find? (fun e => e.reader = rid) with
      | none =>
        rw [hfind] at hrun
        simp only [Option.some.injEq, Prod.mk.injEq] at hrun
        obtain ⟨hst, -, -⟩ := hrun
        have hnotin : rid ∉ ids l := by
          intro hmem
          rcases List.mem_map.mp hmem with ⟨a, ha, har⟩
          have := List.find?_eq_none.mp hfind a ha
          simp [har] at this
        constructor
        · intro _ e he
          rw [suffixFrom_of_not_mem hnotin] at he
          cases he
        · intro _
          exact hst.symm
      | some c =>
        rw [hfind] at hrun
        simp only [] at hrun
        have hcr : c.reader = rid := find?_reader hfind
        have hcm : c ∈ l := List.mem_of_find?_eq_some hfind
        have hstep := suffix_step hnd hfind
        by_cases h1 : env.headIndex rid < expectedIdx origin c
        · rw [if_pos h1] at hrun
          by_cases h2 : waitRes env deadline c (expectedIdx origin c)
              = MXL_STATUS_OK
          · rw [if_pos h2] at hrun
            have hsatc : satisfied env origin deadline c := Or.inr h2
            by_cases h3 : arrivalOf origin c < env.taiNow rid
            · rw [if_pos h3] at hrun
              by_cases h4 : c.maxObservedSourceDelay <
                  srcDelay env origin rid c
              · rw [if_pos h4] at hrun
                by_cases h5 : headDelay (updMax rid
                    (srcDelay env origin rid c) l) < srcDelay env origin rid c
                · rw [if_pos h5] at hrun
                  cases hsucc : succOf l rid with
                  | none =>
                    rw [hsucc] at hrun
                    cases hrun
                  | some x =>
                    rw [hsucc] at hrun
                    have hx_l : x ∈ ids l := succOf_mem hsucc
                    have hx_l1 : x ∈ ids (updMax rid
                        (srcDelay env origin rid c) l) := by
                      rw [ids_updMax]
                      exact hx_l
                    have hperm := moveToFront_perm
                      (updMax rid (srcDelay env origin rid c) l) x
                    have hnd1 : (ids (updMax rid
                        (srcDelay env origin rid c) l)).Nodup := by
                      rw [ids_updMax]
                      exact hnd
                    have hnd2 : (ids (moveToFront (updMax rid
                        (srcDelay env origin rid c) l) x)).Nodup :=
                      ((hperm.map ListEntry.reader).nodup_iff).mpr hnd1
                    have hrec := ih _ (some x) _ st l2 tr2 hnd2 hrun
                    constructor
                    · intro hok e he
                      rw [hstep] at he
                      have hall : ∀ y ∈ moveToFront (updMax rid
                          (srcDelay env origin rid c) l) x,
                          satisfied env origin deadline y := by
                        rcases moveToFront_shape hx_l1 with
                          ⟨xe, lf, lb, hxr, -, -, hmtf⟩
                        intro y hy
                        apply hrec.1 hok
                        rw [hmtf, suffixFrom_cons, if_pos hxr]
                        rw [hmtf] at hy
                        exact hy
                      rcases List.mem_cons.mp he with heq | he2
                      · rw [heq]
                        exact hsatc
                      · have hel : e ∈ l := mem_suffixFrom he2
                        rcases mem_updMax_rev rid
                            (srcDelay env origin rid c) hel with
                          ⟨y, hy, hor⟩
                        have hy2 : y ∈ moveToFront (updMax rid
                            (srcDelay env origin rid c) l) x :=
                          hperm.mem_iff.mpr hy
                        have hsy := hall y hy2
                        rcases hor with heq | ⟨-, heq⟩
                        · rw [heq] at hsy
                          exact hsy
                        · rw [heq] at hsy
                          exact (satisfied_congr env origin deadline
                            (sameCore_upd e _)).mpr hsy
                    · intro hsat
                      apply hrec.2
                      exact satisfied_all_perm hperm
                        (satisfied_all_updMax hsat)
                · rw [if_neg h5] at hrun
                  have hnd1 : (ids (updMax rid
                      (srcDelay env origin rid c) l)).Nodup := by
                    rw [ids_updMax]
                    exact hnd
                  have hrec := ih _ (succOf l rid) _ st l2 tr2 hnd1 hrun
                  constructor
                  · intro hok e he
                    rw [hstep] at he
                    rcases List.mem_cons.mp he with heq | he2
                    · rw [heq]
                      exact hsatc
                    · have hsfx := hrec.1 hok
                      rw [suffixFrom_updMax _ _ hnd] at hsfx
                      rcases mem_updMax_rev rid
                          (srcDelay env origin rid c) he2 with
                        ⟨y, hy, hor⟩
                      have hsy := hsfx y hy
                      rcases hor with heq | ⟨-, heq⟩
                      · rw [heq] at hsy
                        exact hsy
                      · rw [heq] at hsy
                        exact (satisfied_congr env origin deadline
                          (sameCore_upd e _)).mpr hsy
                  · intro hsat
                    apply hrec.2
                    exact satisfied_all_updMax hsat
              · rw [if_neg h4] at hrun
                have hrec := ih _ (succOf l rid) _ st l2 tr2 hnd hrun
                constructor
                · intro hok e he
                  rw [hstep] at he
                  rcases List.mem_cons.mp he with heq | he2
                  · rw [heq]
                    exact hsatc
                  · exact hrec.1 hok e he2
                · exact hrec.2
            · rw [if_neg h3] at hrun
              have hrec := ih _ (succOf l rid) _ st l2 tr2 hnd hrun
              constructor
              · intro hok e he
                rw [hstep] at he
                rcases List.mem_cons.mp he with heq | he2
                · rw [heq]
                  exact hsatc
                · exact hrec.1 hok e he2
              · exact hrec.2
          · rw [if_neg h2] at hrun
            simp only [Option.some.injEq, Prod.mk.injEq] at hrun
            obtain ⟨hst, -, -⟩ := hrun
            constructor
            · intro hok
              exfalso
              exact h2 (by rw [hst]; exact hok)
            · intro hsat
              exfalso
              rcases hsat c hcm with hle | hok2
              · rw [hcr] at hle
                omega
              · exact h2 hok2
        · rw [if_neg h1] at hrun
          have hrec := ih _ (succOf l rid) _ st l2 tr2 hnd hrun
          constructor
          · intro hok e he
            rw [hstep] at he
            rcases List.mem_cons.mp he with heq | he2
            · rw [heq]
              refine Or.inl ?_
              rw [hcr]
              omega
            · exact hrec.1 hok e he2
          · exact hrec.2

/-- List evolution across the loop: the final list carries exactly the
same reader ids (as a permutation — nothing is ever added or purged), and
every final entry descends from an initial entry of the same reader by
`delayEvolves`. -/
theorem waitLoop_evolve (env : SyncEnv) (origin deadline : Int) :
    ∀ (fuel : Nat) (l : List ListEntry) (pos : Option Nat) (tr : List SyncEv)
      (st : Nat) (l2 : List ListEntry) (tr2 : List SyncEv),
      (ids l).Nodup →
      waitLoop env origin deadline fuel l pos tr = some (st, l2, tr2) →
      (ids l2).Perm (ids l) ∧
        ∀ x ∈ l2, ∃ e ∈ l, delayEvolves env origin deadline e x := by
  intro fuel
  induction fuel with
  | zero =>
    intro l pos tr st l2 tr2 hnd hrun
    cases pos with
    | none =>
      rw [waitLoop_none] at hrun
      simp only [Option.some.injEq, Prod.mk.injEq] at hrun
      obtain ⟨-, hl, -⟩ := hrun
      subst hl
      exact ⟨List.Perm.refl _,
        fun x hx => ⟨x, hx, delayEvolves_refl env origin deadline x⟩⟩
    | some rid =>
      rw [waitLoop_zero] at hrun
      cases hrun
  | succ fuel ih =>
    intro l pos tr st l2 tr2 hnd hrun
    cases pos with
    | none =>
      rw [waitLoop_none] at hrun
      simp only [Option.some.injEq, Prod.mk.injEq] at hrun
      obtain ⟨-, hl, -⟩ := hrun
      subst hl
      exact ⟨List.Perm.refl _,
        fun x hx => ⟨x, hx, delayEvolves_refl env origin deadline x⟩⟩
    | some rid =>
      rw [waitLoop_succ] at hrun
      cases hfind : l.find? (fun e => e.reader = rid) with
      | none =>
        rw [hfind] at hrun
        simp only [Option.some.injEq, Prod.mk.injEq] at hrun
        obtain ⟨-, hl, -⟩ := hrun
        subst hl
        exact ⟨List.Perm.refl _,
          fun x hx => ⟨x, hx, delayEvolves_refl env origin deadline x⟩⟩
      | some c =>
        rw [hfind] at hrun
        simp only [] at hrun
        by_cases h1 : env.headIndex rid < expectedIdx origin c
        · rw [if_pos h1] at hrun
          by_cases h2 : waitRes env deadline c (expectedIdx origin c)
              = MXL_STATUS_OK
          · rw [if_pos h2] at hrun
            by_cases h3 : arrivalOf origin c < env.taiNow rid
            · rw [if_pos h3] at hrun
              by_cases h4 : c.maxObservedSourceDelay <
                  srcDelay env origin rid c
              · rw [if_pos h4] at hrun
                have hone := delayEvolves_updMax deadline
                  hnd hfind h1 h2 h3 h4
                have hnd1 : (ids (updMax rid
                    (srcDelay env origin rid c) l)).Nodup := by
                  rw [ids_updMax]
                  exact hnd
                by_cases h5 : headDelay (updMax rid
                    (srcDelay env origin rid c) l) < srcDelay env origin rid c
                · rw [if_pos h5] at hrun
                  cases hsucc : succOf l rid with
                  | none =>
                    rw [hsucc] at hrun
                    cases hrun
                  | some x =>
                    rw [hsucc] at hrun
                    have hperm := moveToFront_perm
                      (updMax rid (srcDelay env origin rid c) l) x
                    have hnd2 : (ids (moveToFront (updMax rid
                        (srcDelay env origin rid c) l) x)).Nodup :=
                      ((hperm.map ListEntry.reader).nodup_iff).mpr hnd1
                    have hrec := ih _ (some x) _ st l2 tr2 hnd2 hrun
                    constructor
                    · refine hrec.1.trans ?_
                      have h1p : (ids (moveToFront (updMax rid
                          (srcDelay env origin rid c) l) x)).Perm
                          (ids (updMax rid (srcDelay env origin rid c) l)) :=
                        hperm.map ListEntry.reader
                      rw [ids_updMax] at h1p
                      exact h1p
                    · intro x2 hx2
                      rcases hrec.2 x2 hx2 with ⟨y, hy, hdy⟩
                      have hy1 : y ∈ updMax rid (srcDelay env origin rid c) l :=
                        hperm.mem_iff.mp hy
                      rcases hone y hy1 with ⟨e, he, hde⟩
                      exact ⟨e, he, delayEvolves_trans hde hdy⟩
                · rw [if_neg h5] at hrun
                  have hrec := ih _ (succOf l rid) _ st l2 tr2 hnd1 hrun
                  constructor
                  · refine hrec.1.trans ?_
                    rw [ids_updMax]
                  · intro x2 hx2
                    rcases hrec.2 x2 hx2 with ⟨y, hy, hdy⟩
                    rcases hone y hy with ⟨e, he, hde⟩
                    exact ⟨e, he, delayEvolves_trans hde hdy⟩
              · rw [if_neg h4] at hrun
                exact ih _ (succOf l rid) _ st l2 tr2 hnd hrun
            · rw [if_neg h3] at hrun
              exact ih _ (succOf l rid) _ st l2 tr2 hnd hrun
          · rw [if_neg h2] at hrun
            simp only [Option.some.injEq, Prod.mk.injEq] at hrun
            obtain ⟨-, hl, -⟩ := hrun
            subst hl
            exact ⟨List.Perm.refl _,
              fun x hx => ⟨x, hx, delayEvolves_refl env origin deadline x⟩⟩
        · rw [if_neg h1] at hrun
          exact ih _ (succOf l rid) _ st l2 tr2 hnd hrun

/-- `true` for every event except a splice. -/
def notSpliced : SyncEv → Bool
  | SyncEv.spliced _ => false
  | _ => true

/-- The reader ids of the visit events, in order. -/
def visitedOf (evs : List SyncEv) : List Nat :=
  evs.filterMap (fun ev =>
    match ev with
    | SyncEv.visited r => some r
    | _ => none)

theorem prefix_cons {a : Nat} {xs ys : List Nat} (h : xs <+: ys) :
    a :: xs <+: a :: ys := by
  rcases h with ⟨t, ht⟩
  exact ⟨t, by rw [List.cons_append, ht]⟩

/-- The skip condition, transported across an in-place delay update. -/
theorem skipHyp_updMax {env : SyncEnv} {origin : Int} {rid0 rid : Nat}
    {v : Int} {l : List ListEntry}
    (h : ∀ e ∈ l, e.reader = rid0 →
      expectedIdx origin e ≤ env.headIndex rid0) :
    ∀ e ∈ updMax rid v l, e.reader = rid0 →
      expectedIdx origin e ≤ env.headIndex rid0 := by
  intro e he her
  rcases mem_updMax he with ⟨e0, he0, hor⟩
  rcases hor with heq | ⟨-, heq⟩
  · rw [heq] at her ⊢
    exact h e0 he0 her
  · rw [heq] at her ⊢
    exact h e0 he0 her

/-- The skip condition, transported across a permutation. -/
theorem skipHyp_perm {env : SyncEnv} {origin : Int} {rid0 : Nat}
    {l l2 : List ListEntry} (hp : l2.Perm l)
    (h : ∀ e ∈ l, e.reader = rid0 →
      expectedIdx origin e ≤ env.headIndex rid0) :
    ∀ e ∈ l2, e.reader = rid0 →
      expectedIdx origin e ≤ env.headIndex rid0 :=
  fun e he => h e (hp.mem_iff.mp he)

/-- Trace analysis of the loop: (i) a failure status is exactly the result
of the last recorded wait, every earlier wait having returned OK; (ii) an
entry whose snapshot already covers its expected index is never waited on;
(iii) the visit order is a prefix of the current entry order until the
first splice. -/
theorem waitLoop_trace (env : SyncEnv) (origin deadline : Int) :
    ∀ (fuel : Nat) (l : List ListEntry) (pos : Option Nat) (tr : List SyncEv)
      (st : Nat) (l2 : List ListEntry) (tr2 : List SyncEv),
      (ids l).Nodup →
      waitLoop env origin deadline fuel l pos tr = some (st, l2, tr2) →
      ((∀ r v, SyncEv.waited r v ∈ tr → v = MXL_STATUS_OK) →
          st ≠ MXL_STATUS_OK →
          ∃ tr1 rid2, tr2 = (tr1 ++ [SyncEv.visited rid2]) ++
              [SyncEv.waited rid2 st] ∧
            ∀ r v, SyncEv.waited r v ∈ tr1 → v = MXL_STATUS_OK) ∧
        (∀ rid0, (∀ e ∈ l, e.reader = rid0 →
            expectedIdx origin e ≤ env.headIndex rid0) →
          ∀ res, SyncEv.waited rid0 res ∈ tr2 →
            SyncEv.waited rid0 res ∈ tr) ∧
        (∃ dlt, tr2 = tr ++ dlt ∧
          visitedOf (dlt.takeWhile notSpliced) <+: ids (suffixFrom l pos)) := by
  intro fuel
  induction fuel with
  | zero =>
    intro l pos tr st l2 tr2 hnd hrun
    cases pos with
    | none =>
      rw [waitLoop_none] at hrun
      simp only [Option.some.injEq, Prod.mk.injEq] at hrun
      obtain ⟨hst, -, htr⟩ := hrun
      subst htr
      refine ⟨fun _ hne => absurd hst.symm hne, fun rid0 _ res hres => hres,
        [], by simp, ?_⟩
      rw [suffixFrom_none]
      simp [visitedOf]
    | some rid =>
      rw [waitLoop_zero] at hrun
      cases hrun
  | succ fuel ih =>
    intro l pos tr st l2 tr2 hnd hrun
    cases pos with
    | none =>
      rw [waitLoop_none] at hrun
      simp only [Option.some.injEq, Prod.mk.injEq] at hrun
      obtain ⟨hst, -, htr⟩ := hrun
      subst htr
      refine ⟨fun _ hne => absurd hst.symm hne, fun rid0 _ res hres => hres,
        [], by simp, ?_⟩
      rw [suffixFrom_none]
      simp [visitedOf]
    | some rid =>
      rw [waitLoop_succ] at hrun
      cases hfind : l.find? (fun e => e.reader = rid) with
      | none =>
        rw [hfind] at hrun
        simp only [Option.some.injEq, Prod.mk.injEq] at hrun
        obtain ⟨hst, -, htr⟩ := hrun
        subst htr
        have hnotin : rid ∉ ids l := by
          intro hmem
          rcases List.mem_map.mp hmem with ⟨a, ha, har⟩
          have := List.find?_eq_none.mp hfind a ha
          simp [har] at this
        refine ⟨fun _ hne => absurd hst.symm hne, fun rid0 _ res hres => hres,
          [], by simp, ?_⟩
        rw [suffixFrom_of_not_mem hnotin]
        simp [visitedOf]
      | some c =>
        rw [hfind] at hrun
        simp only [] at hrun
        have hcr : c.reader = rid := find?_reader hfind
        have hcm : c ∈ l := List.mem_of_find?_eq_some hfind
        have hstep := suffix_step hnd hfind
        have hsfxids : ids (suffixFrom l (some rid))
            = rid :: ids (suffixFrom l (succOf l rid)) := by
          rw [hstep]
          simp [ids, hcr]
        by_cases h1 : env.headIndex rid < expectedIdx origin c
        · rw [if_pos h1] at hrun
          by_cases h2 : waitRes env deadline c (expectedIdx origin c)
              = MXL_STATUS_OK
          · rw [if_pos h2] at hrun
            by_cases h3 : arrivalOf origin c < env.taiNow rid
            · rw [if_pos h3] at hrun
              by_cases h4 : c.maxObservedSourceDelay <
                  srcDelay env origin rid c
              · rw [if_pos h4] at hrun
                have hnd1 : (ids (updMax rid
                    (srcDelay env origin rid c) l)).Nodup := by
                  rw [ids_updMax]
                  exact hnd
                by_cases h5 : headDelay (updMax rid
                    (srcDelay env origin rid c) l) < srcDelay env origin rid c
                · rw [if_pos h5] at hrun
                  cases hsucc : succOf l rid with
                  | none =>
                    rw [hsucc] at hrun
                    cases hrun
                  | some x =>
                    rw [hsucc] at hrun
                    have hperm := moveToFront_perm
                      (updMax rid (srcDelay env origin rid c) l) x
                    have hnd2 : (ids (moveToFront (updMax rid
                        (srcDelay env origin rid c) l) x)).Nodup :=
                      ((hperm.map ListEntry.reader).nodup_iff).mpr hnd1
                    obtain ⟨hE, hF, hG⟩ := ih _ (some x) _ st l2 tr2 hnd2 hrun
                    refine ⟨?_, ?_, ?_⟩
                    · intro hok hne
                      apply hE ?_ hne
                      intro r v hv
                      rcases List.mem_append.mp hv with hv2 | hv2
                      · rcases List.mem_append.mp hv2 with hv3 | hv3
                        · rcases List.mem_append.mp hv3 with hv4 | hv4
                          · exact hok r v hv4
                          · simp at hv4
                        · simp at hv3
                          rw [hv3.2]
                          exact h2
                      · simp at hv2
                    · intro rid0 hskip res hres
                      have hmem := hF rid0 (skipHyp_perm hperm
                        (skipHyp_updMax hskip)) res hres
                      rcases List.mem_append.mp hmem with hv2 | hv2
                      · rcases List.mem_append.mp hv2 with hv3 | hv3
                        · rcases List.mem_append.mp hv3 with hv4 | hv4
                          · exact hv4
                          · simp at hv4
                        · exfalso
                          simp at hv3
                          have := hskip c hcm (by rw [hcr, hv3.1])
                          rw [← hv3.1] at h1
                          omega
                      · simp at hv2
                    · rcases hG with ⟨dlt2, hdlt, -⟩
                      refine ⟨SyncEv.visited rid ::
                        SyncEv.waited rid (waitRes env deadline c
                          (expectedIdx origin c)) ::
                        SyncEv.spliced x :: dlt2, ?_, ?_⟩
                      · rw [hdlt]
                        simp
                      · rw [hsfxids]
                        simp only [List.takeWhile_cons, notSpliced]
                        simp [visitedOf]
                · rw [if_neg h5] at hrun
                  obtain ⟨hE, hF, hG⟩ := ih _ (succOf l rid) _ st l2 tr2
                    hnd1 hrun
                  refine ⟨?_, ?_, ?_⟩
                  · intro hok hne
                    apply hE ?_ hne
                    intro r v hv
                    rcases List.mem_append.mp hv with hv2 | hv2
                    · rcases List.mem_append.mp hv2 with hv3 | hv3
                      · exact hok r v hv3
                      · simp at hv3
                    · simp at hv2
                      rw [hv2.2]
                      exact h2
                  · intro rid0 hskip res hres
                    have hmem := hF rid0 (skipHyp_updMax hskip) res hres
                    rcases List.mem_append.mp hmem with hv2 | hv2
                    · rcases List.mem_append.mp hv2 with hv3 | hv3
                      · exact hv3
                      · simp at hv3
                    · exfalso
                      simp at hv2
                      have := hskip c hcm (by rw [hcr, hv2.1])
                      rw [← hv2.1] at h1
                      omega
                  · rcases hG with ⟨dlt2, hdlt, hpre⟩
                    refine ⟨SyncEv.visited rid ::
                      SyncEv.waited rid (waitRes env deadline c
                        (expectedIdx origin c)) :: dlt2, ?_, ?_⟩
                    · rw [hdlt]
                      simp
                    · rw [hsfxids]
                      simp only [List.takeWhile_cons, notSpliced]
                      simp only [visitedOf, List.filterMap_cons]
                      simp only [visitedOf] at hpre
                      refine prefix_cons ?_
                      rw [suffixFrom_updMax _ _ hnd, ids_updMax] at hpre
                      exact hpre
              · rw [if_neg h4] at hrun
                obtain ⟨hE, hF, hG⟩ := ih _ (succOf l rid) _ st l2 tr2
                  hnd hrun
                refine ⟨?_, ?_, ?_⟩
                · intro hok hne
                  apply hE ?_ hne
                  intro r v hv
                  rcases List.mem_append.mp hv with hv2 | hv2
                  · rcases List.mem_append.mp hv2 with hv3 | hv3
                    · exact hok r v hv3
                    · simp at hv3
                  · simp at hv2
                    rw [hv2.2]
                    exact h2
                · intro rid0 hskip res hres
                  have hmem := hF rid0 hskip res hres
                  rcases List.mem_append.mp hmem with hv2 | hv2
                  · rcases List.mem_append.mp hv2 with hv3 | hv3
                    · exact hv3
                    · simp at hv3
                  · exfalso
                    simp at hv2
                    have := hskip c hcm (by rw [hcr, hv2.1])
                    rw [← hv2.1] at h1
                    omega
                · rcases hG with ⟨dlt2, hdlt, hpre⟩
                  refine ⟨SyncEv.visited rid ::
                    SyncEv.waited rid (waitRes env deadline c
                      (expectedIdx origin c)) :: dlt2, ?_, ?_⟩
                  · rw [hdlt]
                    simp
                  · rw [hsfxids]
                    simp only [List.takeWhile_cons, notSpliced]
                    simp only [visitedOf, List.filterMap_cons]
                    simp only [visitedOf] at hpre
                    exact prefix_cons hpre
            · rw [if_neg h3] at hrun
              obtain ⟨hE, hF, hG⟩ := ih _ (succOf l rid) _ st l2 tr2
                hnd hrun
              refine ⟨?_, ?_, ?_⟩
              · intro hok hne
                apply hE ?_ hne
                intro r v hv
                rcases List.mem_append.mp hv with hv2 | hv2
                · rcases List.mem_append.mp hv2 with hv3 | hv3
                  · exact hok r v hv3
                  · simp at hv3
                · simp at hv2
                  rw [hv2.2]
                  exact h2
              · intro rid0 hskip res hres
                have hmem := hF rid0 hskip res hres
                rcases List.mem_append.mp hmem with hv2 | hv2
                · rcases List.mem_append.mp hv2 with hv3 | hv3
                  · exact hv3
                  · simp at hv3
                · exfalso
                  simp at hv2
                  have := hskip c hcm (by rw [hcr, hv2.1])
                  rw [← hv2.1] at h1
                  omega
              · rcases hG with ⟨dlt2, hdlt, hpre⟩
                refine ⟨SyncEv.visited rid ::
                  SyncEv.waited rid (waitRes env deadline c
                    (expectedIdx origin c)) :: dlt2, ?_, ?_⟩
                · rw [hdlt]
                  simp
                · rw [hsfxids]
                  simp only [List.takeWhile_cons, notSpliced]
                  simp only [visitedOf, List.filterMap_cons]
                  simp only [visitedOf] at hpre
                  exact prefix_cons hpre
          · rw [if_neg h2] at hrun
            simp only [Option.some.injEq, Prod.mk.injEq] at hrun
            obtain ⟨hst, -, htr⟩ := hrun
            subst htr
            refine ⟨?_, ?_, ?_⟩
            · intro hok hne
              refine ⟨tr, rid, ?_, hok⟩
              rw [hst]
            · intro rid0 hskip res hres
              rcases List.mem_append.mp hres with hv2 | hv2
              · rcases List.mem_append.mp hv2 with hv3 | hv3
                · exact hv3
                · simp at hv3
              · exfalso
                simp at hv2
                have h6 := hskip c hcm (by rw [hcr, hv2.1])
                rw [← hv2.1] at h1
                omega
            · refine ⟨[SyncEv.visited rid, SyncEv.waited rid st], by
                rw [hst]; simp, ?_⟩
              rw [hsfxids]
              simp only [List.takeWhile_cons, notSpliced]
              simp [visitedOf]
        · rw [if_neg h1] at hrun
          obtain ⟨hE, hF, hG⟩ := ih _ (succOf l rid) _ st l2 tr2 hnd hrun
          refine ⟨?_, ?_, ?_⟩
          · intro hok hne
            apply hE ?_ hne
            intro r v hv
            rcases List.mem_append.mp hv with hv2 | hv2
            · exact hok r v hv2
            · simp at hv2
          · intro rid0 hskip res hres
            have hmem := hF rid0 hskip res hres
            rcases List.mem_append.mp hmem with hv2 | hv2
            · exact hv2
            · simp at hv2
          · rcases hG with ⟨dlt2, hdlt, hpre⟩
            refine ⟨SyncEv.visited rid :: dlt2, ?_, ?_⟩
            · rw [hdlt]
              simp
            · rw [hsfxids]
              simp only [List.takeWhile_cons, notSpliced]
              simp only [visitedOf, List.filterMap_cons]
              simp only [visitedOf] at hpre
              exact prefix_cons hpre

/-- The suffix taken from the head position is the whole list. -/
theorem suffixFrom_head (l : List ListEntry) :
    suffixFrom l ((l.head?).map ListEntry.reader) = l := by
  cases l with
  | nil => rfl
  | cons e rest =>
    simp only [List.head?_cons]
    rw [show Option.map ListEntry.reader (some e) = some e.reader from rfl]
    rw [suffixFrom_cons, if_pos rfl]

/-- Under distinct ids, two members with the same reader coincide. -/
theorem nodup_reader_inj {l : List ListEntry} (hnd : (ids l).Nodup)
    {a b : ListEntry} (ha : a ∈ l) (hb : b ∈ l)
    (hr : a.reader = b.reader) : a = b :=
  List.inj_on_of_nodup_map hnd ha hb hr

/-- C5: `waitForDataAt` (on a defined run) returns OK iff every enrolled
reader has data at its expected index or better; an entry whose head-index
snapshot already covers the expected index is never waited on; and a
failure status is exactly the result of the last wait performed, every
earlier wait having returned OK (first non-OK returns immediately). -/
theorem C5_waitForDataAt_contract (env : SyncEnv) (origin deadline : Int)
    (l : List ListEntry) (st : Nat) (l2 : List ListEntry) (tr : List SyncEv)
    (hnd : (ids l).Nodup)
    (hrun : waitForDataAt env origin deadline l = some (st, l2, tr)) :
    (st = MXL_STATUS_OK ↔ ∀ e ∈ l, satisfied env origin deadline e) ∧
    (∀ e ∈ l, expectedIdx origin e ≤ env.headIndex e.reader →
      ∀ res, SyncEv.waited e.reader res ∉ tr) ∧
    (st ≠ MXL_STATUS_OK →
      ∃ tr1 rid, tr = (tr1 ++ [SyncEv.visited rid]) ++
          [SyncEv.waited rid st] ∧
        ∀ r v, SyncEv.waited r v ∈ tr1 → v = MXL_STATUS_OK) := by
  unfold waitForDataAt at hrun
  have hsat := waitLoop_sat env origin deadline _ _ _ _ _ _ _ hnd hrun
  have htrace := waitLoop_trace env origin deadline _ _ _ _ _ _ _ hnd hrun
  refine ⟨⟨?_, hsat.2⟩, ?_, ?_⟩
  · intro hok
    have := hsat.1 hok
    rw [suffixFrom_head] at this
    exact this
  · intro e he hle res hmem
    have hskip : ∀ e2 ∈ l, e2.reader = e.reader →
        expectedIdx origin e2 ≤ env.headIndex e.reader := by
      intro e2 he2 hr2
      rw [nodup_reader_inj hnd he2 he hr2]
      exact hle
    have := htrace.2.1 e.reader hskip res hmem
    cases this
  · intro hne
    exact htrace.1 (fun r v hv => absurd hv (List.not_mem_nil _)) hne

/-- A fixed two-reader group (one discrete, one continuous) and an
environment in which both readers already have data: used to witness the
contract theorems on a concrete defined run. -/
def cList : List ListEntry :=
  [mkDiscreteEntry 1 4 ⟨1, 1⟩, mkContinuousEntry 2 ⟨1, 1⟩]

/-- Environment for `cList`: every head index is 5 and all waits return
OK at TAI time 0. -/
def cEnv : SyncEnv :=
  { headIndex := fun _ => 5
    grainWait := fun _ _ _ _ => MXL_STATUS_OK
    samplesWait := fun _ _ _ => MXL_STATUS_OK
    taiNow := fun _ => 0 }

/-- Witness for `C5_waitForDataAt_contract` on a concrete defined run. -/
theorem C5_waitForDataAt_contract_witness :
    ((ids cList).Nodup ∧
      waitForDataAt cEnv 1000000000 0 cList
        = some (MXL_STATUS_OK, cList,
            [SyncEv.visited 1, SyncEv.visited 2])) ∧
    (MXL_STATUS_OK = MXL_STATUS_OK ↔
      ∀ e ∈ cList, satisfied cEnv 1000000000 0 e) :=
  ⟨⟨by decide, by decide⟩,
    (C5_waitForDataAt_contract cEnv 1000000000 0 cList MXL_STATUS_OK cList
      [SyncEv.visited 1, SyncEv.visited 2] (by decide) (by decide)).1⟩

/-- Three enrolled discrete readers at rate (1, 1): the concrete group for
the splice scenario. -/
def cList3 : List ListEntry :=
  [mkDiscreteEntry 1 4 ⟨1, 1⟩, mkDiscreteEntry 2 4 ⟨1, 1⟩,
   mkDiscreteEntry 3 4 ⟨1, 1⟩]

/-- Environment for `cList3`: reader 2 lags (head index 0, so the group
blocks on it and the wait succeeds), the others are ahead; the TAI clock
reads 2 s, one second past the expected arrival of index 1. -/
def cEnvA : SyncEnv :=
  { headIndex := fun rid => if rid = 2 then 0 else 5
    grainWait := fun _ _ _ _ => MXL_STATUS_OK
    samplesWait := fun _ _ _ => MXL_STATUS_OK
    taiNow := fun _ => 2000000000 }

/-- C6 counter-run: in `[1, 2, 3]`, entry 2 is the one whose observed
source delay rises above the head entry's, yet after `waitForDataAt` the
front of the list is entry 3 — `splice_after(before_begin(), _readers,
current)` moves the node AFTER `current`, not `current` itself (the code's
own comment says "we move this flow to the front").  The delay column
confirms entry 2 (now last) is the one that was updated. -/
theorem C6_splice_moves_successor :
    (waitForDataAt cEnvA 1000000000 0 cList3).map (fun r => ids r.2.1)
      = some [3, 1, 2] ∧
    (waitForDataAt cEnvA 1000000000 0 cList3).map
        (fun r => r.2.1.map ListEntry.maxObservedSourceDelay)
      = some [0, 0, 1000000000] ∧
    (some [3, 1, 2] : Option (List Nat)) ≠ some [2, 1, 3] := by decide

/-- C7: `waitForDataAt` has no reader-liveness path at all: on every
defined run the final list carries exactly the reader ids of the initial
list (no entry is ever purged), and any status it returns is either OK or
a status produced by one of the recorded `waitForGrain`/`waitForSamples`
calls — the loop itself never synthesizes a reader-gone status. -/
theorem C7_no_reader_gone_path (env : SyncEnv) (origin deadline : Int)
    (l : List ListEntry) (st : Nat) (l2 : List ListEntry) (tr : List SyncEv)
    (hnd : (ids l).Nodup)
    (hrun : waitForDataAt env origin deadline l = some (st, l2, tr)) :
    (ids l2).Perm (ids l) ∧
    (st = MXL_STATUS_OK ∨ ∃ rid, SyncEv.waited rid st ∈ tr) := by
  unfold waitForDataAt at hrun
  have hev := waitLoop_evolve env origin deadline _ _ _ _ _ _ _ hnd hrun
  have htrace := waitLoop_trace env origin deadline _ _ _ _ _ _ _ hnd hrun
  refine ⟨hev.1, ?_⟩
  by_cases hok : st = MXL_STATUS_OK
  · exact Or.inl hok
  · rcases htrace.1 (fun r v hv => absurd hv (List.not_mem_nil _)) hok with
      ⟨tr1, rid2, htr, -⟩
    refine Or.inr ⟨rid2, ?_⟩
    rw [htr]
    simp

/-- Witness for `C7_no_reader_gone_path` on a concrete defined run. -/
theorem C7_no_reader_gone_path_witness :
    ((ids cList).Nodup ∧
      waitForDataAt cEnv 1000000000 0 cList
        = some (MXL_STATUS_OK, cList,
            [SyncEv.visited 1, SyncEv.visited 2])) ∧
    ((ids cList).Perm (ids cList) ∧
      (MXL_STATUS_OK = MXL_STATUS_OK ∨
        ∃ rid, SyncEv.waited rid MXL_STATUS_OK ∈
          [SyncEv.visited 1, SyncEv.visited 2])) :=
  ⟨⟨by decide, by decide⟩,
    C7_no_reader_gone_path cEnv 1000000000 0 cList MXL_STATUS_OK cList
      [SyncEv.visited 1, SyncEv.visited 2] (by decide) (by decide)⟩

/-- Re-adding an enrolled discrete reader rewrites the `minValidSlices` of
its (first) entry in place and changes nothing else. -/
theorem addReaderDiscrete_update {rid mvs : Nat} {rate : mxlRational}
    {l : List ListEntry} (h : rid ∈ ids l) :
    ∃ e l1 l2, l = l1 ++ e :: l2 ∧ e.reader = rid ∧
      (∀ y ∈ l1, ¬ y.reader = rid) ∧
      addReaderDiscrete rid mvs rate l
        = l1 ++ { e with minValidSlices := mvs } :: l2 := by
  induction l with
  | nil => simp [ids] at h
  | cons a rest ih =>
    by_cases ha : a.reader = rid
    · refine ⟨a, [], rest, rfl, ha, by simp, ?_⟩
      unfold addReaderDiscrete
      rw [if_pos ha]
      rfl
    · have h2 : rid ∈ ids rest := by
        rcases List.mem_cons.mp h with heq | hm
        · exact absurd heq.symm ha
        · exact hm
      rcases ih h2 with ⟨e, l1, l2, hsplit, her, hl1, heq⟩
      refine ⟨e, a :: l1, l2, by rw [hsplit]; rfl, her, ?_, ?_⟩
      · intro y hy
        rcases List.mem_cons.mp hy with hy2 | hy2
        · rw [hy2]; exact ha
        · exact hl1 y hy2
      · unfold addReaderDiscrete
        rw [if_neg ha, heq]
        rfl

/-- Re-adding an enrolled continuous reader leaves the group unchanged. -/
theorem addReaderContinuous_noop {rid : Nat} {rate : mxlRational}
    {l : List ListEntry} (h : rid ∈ ids l) :
    addReaderContinuous rid rate l = l := by
  induction l with
  | nil => simp [ids] at h
  | cons a rest ih =>
    unfold addReaderContinuous
    by_cases ha : a.reader = rid
    · rw [if_pos ha]
    · have h2 : rid ∈ ids rest := by
        rcases List.mem_cons.mp h with heq | hm
        · exact absurd heq.symm ha
        · exact hm
      rw [if_neg ha, ih h2]

/-- Removing an absent reader is a no-op. -/
theorem removeReader_not_mem {rid : Nat} {l : List ListEntry}
    (h : rid ∉ ids l) : removeReader rid l = l := by
  induction l with
  | nil => rfl
  | cons a rest ih =>
    unfold removeReader
    rw [if_neg (fun he => h (by rw [← he]; exact List.mem_cons_self _ _))]
    rw [ih (fun hm => h (List.mem_cons_of_mem _ hm))]

/-- Removing an enrolled reader erases exactly its (first) entry. -/
theorem removeReader_erase {rid : Nat} {l : List ListEntry}
    (h : rid ∈ ids l) :
    ∃ e l1 l2, l = l1 ++ e :: l2 ∧ e.reader = rid ∧
      (∀ y ∈ l1, ¬ y.reader = rid) ∧ removeReader rid l = l1 ++ l2 := by
  induction l with
  | nil => simp [ids] at h
  | cons a rest ih =>
    by_cases ha : a.reader = rid
    · refine ⟨a, [], rest, rfl, ha, by simp, ?_⟩
      unfold removeReader
      rw [if_pos ha]
      rfl
    · have h2 : rid ∈ ids rest := by
        rcases List.mem_cons.mp h with heq | hm
        · exact absurd heq.symm ha
        · exact hm
      rcases ih h2 with ⟨e, l1, l2, hsplit, her, hl1, heq⟩
      refine ⟨e, a :: l1, l2, by rw [hsplit]; rfl, her, ?_, ?_⟩
      · intro y hy
        rcases List.mem_cons.mp hy with hy2 | hy2
        · rw [hy2]; exact ha
        · exact hl1 y hy2
      · unfold removeReader
        rw [if_neg ha, heq]
        rfl

/-- C8: `addReader` is idempotent by reader identity — re-adding a
discrete reader rewrites only that entry's `minValidSlices` (no duplicate
entry appears), re-adding a continuous reader is a no-op — and
`removeReader` erases exactly the matching entry when present and is a
no-op when absent. -/
theorem C8_enrollment_idempotent :
    (∀ (rid mvs : Nat) (rate : mxlRational) (l : List ListEntry),
      rid ∈ ids l →
      ∃ e l1 l2, l = l1 ++ e :: l2 ∧ e.reader = rid ∧
        (∀ y ∈ l1, ¬ y.reader = rid) ∧
        addReaderDiscrete rid mvs rate l
          = l1 ++ { e with minValidSlices := mvs } :: l2) ∧
    (∀ (rid : Nat) (rate : mxlRational) (l : List ListEntry),
      rid ∈ ids l → addReaderContinuous rid rate l = l) ∧
    (∀ (rid : Nat) (l : List ListEntry),
      rid ∉ ids l → removeReader rid l = l) ∧
    (∀ (rid : Nat) (l : List ListEntry),
      rid ∈ ids l →
      ∃ e l1 l2, l = l1 ++ e :: l2 ∧ e.reader = rid ∧
        (∀ y ∈ l1, ¬ y.reader = rid) ∧ removeReader rid l = l1 ++ l2) :=
  ⟨fun _ _ _ _ h => addReaderDiscrete_update h,
    fun _ _ _ h => addReaderContinuous_noop h,
    fun _ _ h => removeReader_not_mem h,
    fun _ _ h => removeReader_erase h⟩

/-- Witness for `C8_enrollment_idempotent` on a concrete two-entry group:
re-adding reader 1 with `minValidSlices = 9` rewrites its entry in place,
re-adding continuous reader 2 is a no-op, and removing an absent reader 7
is a no-op. -/
theorem C8_enrollment_idempotent_witness :
    (1 ∈ ids cList ∧ 2 ∈ ids cList ∧ 7 ∉ ids cList) ∧
    addReaderContinuous 2 ⟨1, 1⟩ cList = cList ∧
    removeReader 7 cList = cList ∧
    addReaderDiscrete 1 9 ⟨1, 1⟩ cList
      = [mkDiscreteEntry 1 9 ⟨1, 1⟩, mkContinuousEntry 2 ⟨1, 1⟩] :=
  ⟨⟨by decide, by decide, by decide⟩,
    C8_enrollment_idempotent.2.1 2 ⟨1, 1⟩ cList (by decide),
    C8_enrollment_idempotent.2.2.1 7 cList (by decide),
    by decide⟩

/-- Entries of `addReaderDiscrete` either are freshly enrolled with zero
delay or inherit the delay of an existing entry of the same reader. -/
theorem addReaderDiscrete_delay {rid mvs : Nat} {rate : mxlRational}
    {l : List ListEntry} :
    ∀ e ∈ addReaderDiscrete rid mvs rate l,
      e.maxObservedSourceDelay = 0 ∨
        ∃ e0 ∈ l, e0.reader = e.reader ∧
          e.maxObservedSourceDelay = e0.maxObservedSourceDelay := by
  induction l with
  | nil =>
    intro e he
    rcases List.mem_cons.mp he with heq | hm
    · rw [heq]
      exact Or.inl rfl
    · cases hm
  | cons a rest ih =>
    intro e he
    unfold addReaderDiscrete at he
    by_cases ha : a.reader = rid
    · rw [if_pos ha] at he
      rcases List.mem_cons.mp he with heq | hm
      · exact Or.inr ⟨a, List.mem_cons_self _ _, by rw [heq], by rw [heq]⟩
      · exact Or.inr ⟨e, List.mem_cons_of_mem _ hm, rfl, rfl⟩
    · rw [if_neg ha] at he
      rcases List.mem_cons.mp he with heq | hm
      · exact Or.inr ⟨a, List.mem_cons_self _ _, by rw [heq], by rw [heq]⟩
      · rcases ih e hm with h0 | ⟨e0, he0, hr, hd⟩
        · exact Or.inl h0
        · exact Or.inr ⟨e0, List.mem_cons_of_mem _ he0, hr, hd⟩

/-- Entries of `addReaderContinuous` either are freshly enrolled with zero
delay or inherit the delay of an existing entry of the same reader. -/
theorem addReaderContinuous_delay {rid : Nat} {rate : mxlRational}
    {l : List ListEntry} :
    ∀ e ∈ addReaderContinuous rid rate l,
      e.maxObservedSourceDelay = 0 ∨
        ∃ e0 ∈ l, e0.reader = e.reader ∧
          e.maxObservedSourceDelay = e0.maxObservedSourceDelay := by
  induction l with
  | nil =>
    intro e he
    rcases List.mem_cons.mp he with heq | hm
    · rw [heq]
      exact Or.inl rfl
    · cases hm
  | cons a rest ih =>
    intro e he
    unfold addReaderContinuous at he
    by_cases ha : a.reader = rid
    · rw [if_pos ha] at he
      exact Or.inr ⟨e, he, rfl, rfl⟩
    · rw [if_neg ha] at he
      rcases List.mem_cons.mp he with heq | hm
      · exact Or.inr ⟨a, List.mem_cons_self _ _, by rw [heq], by rw [heq]⟩
      · rcases ih e hm with h0 | ⟨e0, he0, hr, hd⟩
        · exact Or.inl h0
        · exact Or.inr ⟨e0, List.mem_cons_of_mem _ he0, hr, hd⟩

/-- `removeReader` only drops an entry: survivors are original entries. -/
theorem removeReader_mem {rid : Nat} {l : List ListEntry} :
    ∀ e ∈ removeReader rid l, e ∈ l := by
  induction l with
  | nil => intro e he; cases he
  | cons a rest ih =>
    intro e he
    unfold removeReader at he
    by_cases ha : a.reader = rid
    · rw [if_pos ha] at he
      exact List.mem_cons_of_mem _ he
    · rw [if_neg ha] at he
      rcases List.mem_cons.mp he with heq | hm
      · rw [heq]; exact List.mem_cons_self _ _
      · exact List.mem_cons_of_mem _ (ih e hm)

/-- C9: `maxObservedSourceDelay` starts at zero for every freshly enrolled
entry; `addReader`/`removeReader` never change an existing entry's delay;
across a defined `waitForDataAt` run every surviving entry's delay evolves
by `delayEvolves` — it never decreases, stays nonnegative, and strictly
increases only after a successful wait on that entry whose TAI completion
time exceeded the expected arrival time `indexToTimestamp(grainRate,
expectedIndex)`. -/
theorem C9_delay_invariant :
    (∀ (rid mvs : Nat) (rate : mxlRational),
      (mkDiscreteEntry rid mvs rate).maxObservedSourceDelay = 0 ∧
      (mkContinuousEntry rid rate).maxObservedSourceDelay = 0) ∧
    (∀ (rid mvs : Nat) (rate : mxlRational) (l : List ListEntry),
      ∀ e ∈ addReaderDiscrete rid mvs rate l,
        e.maxObservedSourceDelay = 0 ∨
          ∃ e0 ∈ l, e0.reader = e.reader ∧
            e.maxObservedSourceDelay = e0.maxObservedSourceDelay) ∧
    (∀ (rid : Nat) (rate : mxlRational) (l : List ListEntry),
      ∀ e ∈ addReaderContinuous rid rate l,
        e.maxObservedSourceDelay = 0 ∨
          ∃ e0 ∈ l, e0.reader = e.reader ∧
            e.maxObservedSourceDelay = e0.maxObservedSourceDelay) ∧
    (∀ (rid : Nat) (l : List ListEntry),
      ∀ e ∈ removeReader rid l, e ∈ l) ∧
    (∀ (env : SyncEnv) (origin deadline : Int) (l : List ListEntry)
      (st : Nat) (l2 : List ListEntry) (tr : List SyncEv),
      (ids l).Nodup →
      waitForDataAt env origin deadline l = some (st, l2, tr) →
      ∀ x ∈ l2, ∃ e ∈ l, delayEvolves env origin deadline e x ∧
        e.maxObservedSourceDelay ≤ x.maxObservedSourceDelay ∧
        (0 ≤ e.maxObservedSourceDelay → 0 ≤ x.maxObservedSourceDelay)) := by
  refine ⟨fun _ _ _ => ⟨rfl, rfl⟩,
    fun _ _ _ _ => addReaderDiscrete_delay,
    fun _ _ _ => addReaderContinuous_delay,
    fun _ _ => removeReader_mem, ?_⟩
  intro env origin deadline l st l2 tr hnd hrun x hx
  unfold waitForDataAt at hrun
  have hev := waitLoop_evolve env origin deadline _ _ _ _ _ _ _ hnd hrun
  rcases hev.2 x hx with ⟨e, he, hde⟩
  refine ⟨e, he, hde, ?_, ?_⟩
  · rcases hde.2 with heq | ⟨hlt, -⟩
    · omega
    · omega
  · intro h0
    rcases hde.2 with heq | ⟨hlt, -⟩
    · omega
    · omega

/-- Witness for `C9_delay_invariant` on a concrete defined run. -/
theorem C9_delay_invariant_witness :
    ((ids cList).Nodup ∧
      waitForDataAt cEnv 1000000000 0 cList
        = some (MXL_STATUS_OK, cList, [SyncEv.visited 1, SyncEv.visited 2]) ∧
      mkDiscreteEntry 1 4 ⟨1, 1⟩ ∈ cList) ∧
    (∃ e ∈ cList, delayEvolves cEnv 1000000000 0 e
        (mkDiscreteEntry 1 4 ⟨1, 1⟩) ∧
      e.maxObservedSourceDelay ≤
        (mkDiscreteEntry 1 4 ⟨1, 1⟩).maxObservedSourceDelay ∧
      (0 ≤ e.maxObservedSourceDelay →
        0 ≤ (mkDiscreteEntry 1 4 ⟨1, 1⟩).maxObservedSourceDelay)) :=
  ⟨⟨by decide, by decide, by decide⟩,
    C9_delay_invariant.2.2.2.2 cEnv 1000000000 0 cList MXL_STATUS_OK cList
      [SyncEv.visited 1, SyncEv.visited 2] (by decide) (by decide)
      (mkDiscreteEntry 1 4 ⟨1, 1⟩) (by decide)⟩

/-- Enrolling a new discrete reader appends its entry at the tail. -/
theorem addReaderDiscrete_append {rid mvs : Nat} {rate : mxlRational}
    {l : List ListEntry} (h : rid ∉ ids l) :
    addReaderDiscrete rid mvs rate l = l ++ [mkDiscreteEntry rid mvs rate] := by
  induction l with
  | nil => rfl
  | cons a rest ih =>
    unfold addReaderDiscrete
    rw [if_neg (fun he => h (by rw [← he]; exact List.mem_cons_self _ _))]
    rw [ih (fun hm => h (List.mem_cons_of_mem _ hm))]
    rfl

/-- Enrolling a new continuous reader appends its entry at the tail. -/
theorem addReaderContinuous_append {rid : Nat} {rate : mxlRational}
    {l : List ListEntry} (h : rid ∉ ids l) :
    addReaderContinuous rid rate l = l ++ [mkContinuousEntry rid rate] := by
  induction l with
  | nil => rfl
  | cons a rest ih =>
    unfold addReaderContinuous
    rw [if_neg (fun he => h (by rw [← he]; exact List.mem_cons_self _ _))]
    rw [ih (fun hm => h (List.mem_cons_of_mem _ hm))]
    rfl

/-- `removeReader` never reorders: its result is a sublist. -/
theorem removeReader_sublist (rid : Nat) (l : List ListEntry) :
    (removeReader rid l).Sublist l := by
  induction l with
  | nil => exact List.Sublist.refl _
  | cons a rest ih =>
    unfold removeReader
    by_cases ha : a.reader = rid
    · rw [if_pos ha]
      exact List.sublist_cons_of_sublist a (List.Sublist.refl rest)
    · rw [if_neg ha]
      exact List.Sublist.cons₂ a ih

/-- C10: new readers are enrolled at the tail; `removeReader` and the
in-place delay update never reorder; the only reordering is the splice of
`waitForDataAt`, which moves exactly one node to the front and keeps the
relative order of all other nodes; consequently, on every defined run the
visit order up to the first splice is a prefix of the enrollment order. -/
theorem C10_ordering :
    (∀ (rid mvs : Nat) (rate : mxlRational) (l : List ListEntry),
      rid ∉ ids l →
      addReaderDiscrete rid mvs rate l
        = l ++ [mkDiscreteEntry rid mvs rate]) ∧
    (∀ (rid : Nat) (rate : mxlRational) (l : List ListEntry),
      rid ∉ ids l →
      addReaderContinuous rid rate l = l ++ [mkContinuousEntry rid rate]) ∧
    (∀ (rid : Nat) (l : List ListEntry),
      (removeReader rid l).Sublist l) ∧
    (∀ (rid : Nat) (v : Int) (l : List ListEntry),
      ids (updMax rid v l) = ids l) ∧
    (∀ (l : List ListEntry) (rid : Nat), rid ∈ ids l →
      ∃ x l1 l2, x.reader = rid ∧ (∀ y ∈ l1, ¬ y.reader = rid) ∧
        l = l1 ++ x :: l2 ∧ moveToFront l rid = x :: (l1 ++ l2)) ∧
    (∀ (env : SyncEnv) (origin deadline : Int) (l : List ListEntry)
      (st : Nat) (l2 : List ListEntry) (tr : List SyncEv),
      (ids l).Nodup →
      waitForDataAt env origin deadline l = some (st, l2, tr) →
      visitedOf (tr.takeWhile notSpliced) <+: ids l) := by
  refine ⟨fun _ _ _ _ h => addReaderDiscrete_append h,
    fun _ _ _ h => addReaderContinuous_append h,
    removeReader_sublist,
    ids_updMax,
    fun _ _ h => moveToFront_shape h, ?_⟩
  intro env origin deadline l st l2 tr hnd hrun
  unfold waitForDataAt at hrun
  have htrace := waitLoop_trace env origin deadline _ _ _ _ _ _ _ hnd hrun
  rcases htrace.2.2 with ⟨dlt, hdlt, hpre⟩
  rw [List.nil_append] at hdlt
  rw [suffixFrom_head] at hpre
  rw [hdlt]
  exact hpre

/-- Witness for `C10_ordering`: appending reader 7 to the concrete group
enrolls at the tail, and on a concrete defined run the visit order is the
enrollment order. -/
theorem C10_ordering_witness :
    (7 ∉ ids cList ∧ (ids cList).Nodup) ∧
    addReaderDiscrete 7 2 ⟨1, 1⟩ cList
      = cList ++ [mkDiscreteEntry 7 2 ⟨1, 1⟩] ∧
    visitedOf (([SyncEv.visited 1, SyncEv.visited 2] :
        List SyncEv).takeWhile notSpliced) <+: ids cList :=
  ⟨⟨by decide, by decide⟩,
    C10_ordering.1 7 2 ⟨1, 1⟩ cList (by decide),
    C10_ordering.2.2.2.2.2 cEnv 1000000000 0 cList MXL_STATUS_OK cList
      [SyncEv.visited 1, SyncEv.visited 2] (by decide) (by decide)⟩
